import Mathlib

/-!
# HashTable.h: a chained, string-keyed hash table

A shallow embedding of `src/HashTable.h` and the properties of its public
operations `Insert`, `Find` and `Delete`.

Modelling conventions.

* A key (`const char*`) is the content of a NUL-terminated C string: the list
  of the `char` values that precede the terminator (each with the numeric value
  it has when read through `char`).  Keys are shorter than `2^31` characters, so
  `strlen` fits the `int` length that the hash functor takes.
* `unsigned int` is 32 bits wide: the digests are computed modulo `2^32`.
* A collision chain (`EntryNode*` linked through `next`) is the list of its
  entries, head first; the bucket array `EntryNode** table` is the map from a
  bucket index to its chain, and a NULL head is the empty list.  `Find` returns
  the stored value where the code returns a pointer to it, and nothing where the
  code returns NULL.
* `size_t` is `w` bits wide.  The occupancy counter `used` is the one `size_t`
  that a short sequence of calls wraps, so `used++` and `used--` are computed
  modulo `2^w`.  Bucket counts are natural numbers: the array of `size` pointers
  is taken to fit the address space with `size` below `2^31`, so that
  `size * 2` and the prime search above it do not overflow and a bucket index
  is unchanged by the conversion to the `int` that `FindKeyIndex` returns.
* Allocation always succeeds; deallocation (`Clear`, `delete`) has no effect on
  the modelled state and is left out.
* A stateful member function takes the state and returns the new state, with
  the returned value when there is one.

The file has three parts: the definitions (the facts that the termination of
the prime search needs stand next to it), the lemmas, and the properties of the
program, each named by its number `C1` .. `C20`.
-/

/-! ## Strategy functions -/

/-- A key: the `char` values of a C string, terminator excluded. -/
abbrev Key := List Int

/-- The length of a C string. -/
def strlen (s : Key) : Nat := s.length

/-- The C library comparison: the strings are compared position by position as
`unsigned char`, the end of a string reading as the terminator `0`; the result
is zero, negative or positive. -/
def strcmp : Key → Key → Int
  | [], [] => 0
  | [], _ :: _ => -1
  | _ :: _, [] => 1
  | a :: s, b :: t =>
    if a = b then strcmp s t else if a % 256 < b % 256 then -1 else 1

/-- `StrCompare`: equal length and `strcmp` zero. -/
def StrCompare (first second : Key) : Bool :=
  let firstLen := strlen first
  let secondLen := strlen second
  firstLen == secondLen && strcmp first second == 0

/-- One round of the digest loop, in 32-bit unsigned arithmetic:
`hash = ((hash << 5) + hash) + c`. -/
def hashRound (hash : Nat) (c : Int) : Nat :=
  Int.toNat (((((hash * 32 % 4294967296 + hash) % 4294967296 : Nat) : Int) + c) % 4294967296)

/-- `ImplHashFunc`: the digest of the first `len` characters of `buf`, from the
seed 5381. -/
def ImplHashFunc (buf : Key) (len : Nat) : Nat :=
  (buf.take len).foldl hashRound 5381

/-! ## Data model -/

/-- `tagEntryNode` without its link: the key (an owned copy) and the value.  The
`next` link is the tail of the chain the entry stands in. -/
structure EntryNode (α : Type) where
  key : Key
  value : α

/-- `tagHashNode`: a bucket array with its occupancy counter and bucket count. -/
structure HashNode (α : Type) where
  table : Nat → List (EntryNode α)
  used : Nat
  size : Nat
  sizeMask : Nat

/-- The class `HashTable<T>`: its four data members. -/
structure HashTable (α : Type) where
  m_hashFunctor : Key → Nat → Nat
  m_keyCmpFunctor : Key → Key → Bool
  m_hashTable : HashNode α
  m_resizeRatio : Nat

/-- The default constructor `tagHashNode()`. -/
def HashNode.default {α : Type} : HashNode α :=
  { table := fun _ => [], used := 0, size := 0, sizeMask := 0 }

/-- `tagHashNode::Init`: sets the bucket count and allocates a zeroed array. -/
def HashNode.Init {α : Type} (hashNode : HashNode α) (_size : Nat) : HashNode α :=
  { hashNode with size := _size, sizeMask := _size - 1, table := fun _ => [] }

/-- The constructor `tagHashNode(size_t _size)`. -/
def HashNode.ofSize {α : Type} (_size : Nat) : HashNode α :=
  HashNode.Init { table := fun _ => [], used := 0, size := _size, sizeMask := 0 } _size

/-- Assignment `table[idx] = chain`. -/
def setBucket {α : Type} (table : Nat → List (EntryNode α)) (idx : Nat)
    (chain : List (EntryNode α)) : Nat → List (EntryNode α) :=
  fun j => if j = idx then chain else table j

namespace HashTable

/-- `INIT_TABLE_SIZE`. -/
def INIT_TABLE_SIZE : Nat := 689981

/-- `HashTable::Init`. -/
def Init {α : Type} (t : HashTable α) (tableSize : Nat) : HashTable α :=
  { t with m_hashTable := t.m_hashTable.Init tableSize }

/-- The constructor `HashTable(functor, cmpFunctor)`. -/
def new {α : Type} (functor : Key → Nat → Nat) (cmpFunctor : Key → Key → Bool) :
    HashTable α :=
  Init { m_hashFunctor := functor, m_keyCmpFunctor := cmpFunctor,
         m_hashTable := HashNode.default, m_resizeRatio := 2 } INIT_TABLE_SIZE

/-- A freshly constructed table with the default strategy. -/
def fresh {α : Type} : HashTable α := new ImplHashFunc StrCompare

/-! ## Prime search -/

/-- The loop of `IsPrime`: trial division of `x` by `i`, `i + 2`, ... -/
def IsPrime.loop (x i : Nat) : Bool :=
  let q := x / i
  if q < i then true
  else if x = q * i then false
  else IsPrime.loop x (i + 2)
termination_by x + 1 - i
decreasing_by
  have h : x / i ≤ x := Nat.div_le_self x i
  omega

/-- `IsPrime`: trial division by the odd numbers from 3. -/
def IsPrime (x : Nat) : Bool := IsPrime.loop x 3

/-- The trial-division loop from `i` accepts `x` exactly when no candidate
`i`, `i + 2`, ... whose square is at most `x` divides `x`. -/
theorem IsPrime.loop_iff (x i : Nat) (hi : 0 < i) :
    IsPrime.loop x i = true ↔ ∀ k, (i + 2 * k) * (i + 2 * k) ≤ x → ¬ (i + 2 * k) ∣ x := by
  induction i using IsPrime.loop.induct x with
  | case1 i q hq =>
    have hq' : x / i < i := hq
    rw [IsPrime.loop]
    simp only [hq', if_true, true_iff]
    intro k hk
    have : x < i * i := (Nat.div_lt_iff_lt_mul hi).1 hq'
    have : i * i ≤ (i + 2 * k) * (i + 2 * k) := Nat.mul_le_mul (by omega) (by omega)
    omega
  | case2 i q hq hx =>
    have hq' : ¬ x / i < i := hq
    have hx' : x = x / i * i := hx
    rw [IsPrime.loop]
    simp only [hq', if_false, ← hx', if_true]
    simp only [Bool.false_eq_true, false_iff, not_forall]
    refine ⟨0, ?_, ?_⟩
    · simp only [Nat.mul_zero, Nat.add_zero]
      exact (Nat.le_div_iff_mul_le hi).1 (by omega)
    · simp only [Nat.mul_zero, Nat.add_zero, not_not]
      exact ⟨x / i, by rw [Nat.mul_comm]; exact hx'⟩
  | case3 i q hq hx ih =>
    have hq' : ¬ x / i < i := hq
    have hx' : ¬ x = x / i * i := hx
    rw [IsPrime.loop]
    simp only [hq', if_false, hx']
    rw [ih (by omega)]
    constructor
    · intro h k
      rcases k with _ | k
      · intro _ hdvd
        apply hx'
        simp only [Nat.mul_zero, Nat.add_zero] at hdvd
        exact (Nat.div_mul_cancel hdvd).symm
      · have := h k
        rwa [show i + 2 + 2 * k = i + 2 * (k + 1) by ring] at this
    · intro h k
      have := h (k + 1)
      rwa [show i + 2 * (k + 1) = i + 2 + 2 * k by ring] at this


/-- `IsPrime` accepts `x` exactly when no odd number from 3 whose square is at
most `x` divides `x`. -/
theorem IsPrime_iff (x : Nat) :
    IsPrime x = true ↔ ∀ k, (3 + 2 * k) * (3 + 2 * k) ≤ x → ¬ (3 + 2 * k) ∣ x :=
  IsPrime.loop_iff x 3 (by decide)

/-- `IsPrime` accepts every prime number. -/
theorem IsPrime_of_prime {p : Nat} (hp : p.Prime) : IsPrime p = true := by
  rw [IsPrime_iff]
  intro k hle hdvd
  rcases (Nat.dvd_prime hp).1 hdvd with h | h
  · omega
  · rw [h] at hle
    have : 3 * p ≤ p * p := Nat.mul_le_mul_right p (by omega)
    have := hp.two_le
    omega

/-- `IsPrime` accepts the double of every prime number. -/
theorem IsPrime_two_mul_prime {p : Nat} (hp : p.Prime) : IsPrime (2 * p) = true := by
  rw [IsPrime_iff]
  intro k hle hdvd
  have hco : Nat.Coprime (3 + 2 * k) 2 := by
    rw [Nat.coprime_comm, Nat.Prime.coprime_iff_not_dvd Nat.prime_two]
    omega
  have hdp : (3 + 2 * k) ∣ p := hco.dvd_of_dvd_mul_left hdvd
  rcases (Nat.dvd_prime hp).1 hdp with h | h
  · omega
  · rw [h] at hle
    have : 3 * p ≤ p * p := Nat.mul_le_mul_right p (by omega)
    have := hp.two_le
    omega

/-- From every start, the search of `NextPrime` meets a candidate that `IsPrime`
accepts. -/
theorem exists_accepted (x : Nat) : ∃ k, IsPrime (x + 2 * k) = true := by
  obtain ⟨p, hge, hp⟩ := Nat.exists_infinite_primes (x + 3)
  rcases Nat.mod_two_eq_zero_or_one x with hx | hx
  · refine ⟨p - x / 2, ?_⟩
    have : x + 2 * (p - x / 2) = 2 * p := by omega
    rw [this]
    exact IsPrime_two_mul_prime hp
  · refine ⟨(p - x) / 2, ?_⟩
    have hodd : p % 2 = 1 := by
      rcases hp.eq_two_or_odd with h | h
      · omega
      · exact h
    have : x + 2 * ((p - x) / 2) = p := by omega
    rw [this]
    exact IsPrime_of_prime hp

/-- The search loop of `NextPrime`: `for(; !IsPrime(x); x += 2);`. -/
def NextPrime.loop (x : Nat) : Nat :=
  if IsPrime x then x else NextPrime.loop (x + 2)
termination_by Nat.find (exists_accepted x)
decreasing_by
  rename_i h
  have h0 : Nat.find (exists_accepted x) ≠ 0 := by
    intro h0
    have := Nat.find_spec (exists_accepted x)
    rw [h0] at this
    exact h (by simpa using this)
  obtain ⟨m, hm⟩ := Nat.exists_eq_succ_of_ne_zero h0
  have hs := Nat.find_spec (exists_accepted x)
  rw [hm] at hs
  have hle : Nat.find (exists_accepted (x + 2)) ≤ m :=
    Nat.find_min' _ (by rw [← hs]; congr 1; omega)
  omega

/-- `NextPrime`. -/
def NextPrime (x : Nat) : Nat :=
  if x ≤ 2 then 2
  else
    let x := if x &&& 1 = 0 then x + 1 else x
    NextPrime.loop x

/-! ## The table operations -/

/-- The chain walk of `Find`: the value of the first entry whose key compares
equal, or nothing (the NULL result). -/
def Find.walk {α : Type} (cmp : Key → Key → Bool) (key : Key) :
    List (EntryNode α) → Option α
  | [] => none
  | entry :: next => if cmp entry.key key then some entry.value else Find.walk cmp key next

/-- `Find`: the value stored for `key`, if any. -/
def Find {α : Type} (t : HashTable α) (key : Key) : Option α :=
  let hash := t.m_hashFunctor key (strlen key)
  let idx := hash % t.m_hashTable.size
  Find.walk t.m_keyCmpFunctor key (t.m_hashTable.table idx)

/-- The chain walk of `Delete`: the chain with the first entry whose key compares
equal spliced out, or nothing when no entry matches. -/
def Delete.walk {α : Type} (cmp : Key → Key → Bool) (key : Key) :
    List (EntryNode α) → Option (List (EntryNode α))
  | [] => none
  | entry :: next =>
    if cmp entry.key key then some next
    else (Delete.walk cmp key next).map (fun rest => entry :: rest)

/-- `Delete`: unlinks the entry of `key` and decrements `used`; does nothing when
the key is not found. -/
def Delete {α : Type} (w : Nat) (t : HashTable α) (key : Key) : HashTable α :=
  let hash := t.m_hashFunctor key (strlen key)
  let idx := hash % t.m_hashTable.size
  match Delete.walk t.m_keyCmpFunctor key (t.m_hashTable.table idx) with
  | some chain =>
    { t with m_hashTable :=
        { t.m_hashTable with
          table := setBucket t.m_hashTable.table idx chain
          used := (t.m_hashTable.used + (2 ^ w - 1)) % 2 ^ w } }
  | none => t

/-- The chain walk of `FindKeyIndex`: whether some entry's key compares equal. -/
def FindKeyIndex.walk {α : Type} (cmp : Key → Key → Bool) (key : Key) :
    List (EntryNode α) → Bool
  | [] => false
  | entry :: next => if cmp entry.key key then true else FindKeyIndex.walk cmp key next

/-- `FindKeyIndex`: counts the bucket as used when it is empty, then returns `-1`
when the key is in the chain and the bucket index otherwise. -/
def FindKeyIndex {α : Type} (w : Nat) (t : HashTable α) (hashNode : HashNode α) (key : Key) :
    HashNode α × Int :=
  let hash := t.m_hashFunctor key (strlen key)
  let idx := hash % hashNode.size
  let entry := hashNode.table idx
  let hashNode :=
    if entry.isEmpty then { hashNode with used := (hashNode.used + 1) % 2 ^ w } else hashNode
  if FindKeyIndex.walk t.m_keyCmpFunctor key entry then (hashNode, -1) else (hashNode, idx)

/-- The protected overload `Insert(hashNode, key, value)`: links a new entry at
the head of the chain unless the key is already there. -/
def InsertNode {α : Type} (w : Nat) (t : HashTable α) (hashNode : HashNode α) (key : Key)
    (value : α) : HashNode α × Bool :=
  let r := FindKeyIndex w t hashNode key
  let hashNode := r.1
  let idx := r.2
  if idx ≠ -1 then
    let newNode : EntryNode α := { key := key, value := value }
    ({ hashNode with
        table := setBucket hashNode.table idx.toNat (newNode :: hashNode.table idx.toNat) },
      true)
  else (hashNode, false)

/-- The growth condition tested by `Rehash`. -/
def GrowthCondition {α : Type} (t : HashTable α) : Prop :=
  t.m_hashTable.used ≥ t.m_hashTable.size ∨
    (t.m_hashTable.used > 0 ∧ t.m_hashTable.size / t.m_hashTable.used < t.m_resizeRatio)

instance {α : Type} (t : HashTable α) : Decidable (GrowthCondition t) := by
  unfold GrowthCondition; infer_instance

/-- The migration loops of `Rehash`: every entry of every bucket of the old array,
in bucket order and chain order, is inserted into the new array. -/
def Rehash.migrate {α : Type} (w : Nat) (t : HashTable α) (newHashNode : HashNode α) :
    HashNode α :=
  (List.range t.m_hashTable.size).foldl
    (fun hashNode i =>
      (t.m_hashTable.table i).foldl
        (fun hashNode entryNode => (InsertNode w t hashNode entryNode.key entryNode.value).1)
        hashNode)
    newHashNode

/-- `Rehash`: when the growth condition holds, replaces the bucket array by one
of `NextPrime (size * 2)` buckets that receives every entry. -/
def Rehash {α : Type} (w : Nat) (t : HashTable α) : HashTable α :=
  if GrowthCondition t then
    let newSize := NextPrime (t.m_hashTable.size * 2)
    let newHashNode : HashNode α := HashNode.ofSize newSize
    { t with m_hashTable := Rehash.migrate w t newHashNode }
  else t

/-- The public `Insert(key, value)`: `Rehash`, then the insertion proper. -/
def Insert {α : Type} (w : Nat) (t : HashTable α) (key : Key) (value : α) :
    HashTable α × Bool :=
  let t := Rehash w t
  let r := InsertNode w t t.m_hashTable key value
  ({ t with m_hashTable := r.1 }, r.2)

/-! ## Sequences of calls, reachable states, stored entries -/

/-- A table state that a freshly constructed default table reaches by `Insert`
and `Delete` calls. -/
inductive Reachable (w : Nat) {α : Type} : HashTable α → Prop
  | fresh : Reachable w fresh
  | insert {t : HashTable α} (key : Key) (value : α) :
      Reachable w t → Reachable w (Insert w t key value).1
  | delete {t : HashTable α} (key : Key) :
      Reachable w t → Reachable w (Delete w t key)

/-- A mutating call of the public interface. -/
inductive Op (α : Type) where
  | Insert (key : Key) (value : α)
  | Delete (key : Key)

/-- Runs a sequence of calls; returns the final table and the results of the
`Insert` calls in order. -/
def run {α : Type} (w : Nat) (t : HashTable α) : List (Op α) → HashTable α × List Bool
  | [] => (t, [])
  | Op.Insert key value :: ops =>
    let r := Insert w t key value
    let rest := run w r.1 ops
    (rest.1, r.2 :: rest.2)
  | Op.Delete key :: ops => run w (Delete w t key) ops

/-- The entries stored in a bucket array, bucket by bucket. -/
def nodeEntries {α : Type} (hashNode : HashNode α) : List (EntryNode α) :=
  (List.range hashNode.size).flatMap hashNode.table

/-- The entries stored in the table. -/
def entries {α : Type} (t : HashTable α) : List (EntryNode α) :=
  nodeEntries t.m_hashTable

/-- The bucket index that the table's hash functor gives a key in a bucket array:
`hash % size`. -/
def bucketOf {α : Type} (t : HashTable α) (hashNode : HashNode α) (key : Key) : Nat :=
  t.m_hashFunctor key (strlen key) % hashNode.size

/-- The lookup of `Find` in a given bucket array. -/
def lookupIn {α : Type} (t : HashTable α) (hashNode : HashNode α) (key : Key) : Option α :=
  Find.walk t.m_keyCmpFunctor key (hashNode.table (bucketOf t hashNode key))

/-- The structural invariant of a bucket array: a positive bucket count, every
entry in the bucket of its key, and no key twice in a chain. -/
structure NodeInv {α : Type} (t : HashTable α) (hashNode : HashNode α) : Prop where
  size_pos : 0 < hashNode.size
  bucket : ∀ i e, e ∈ hashNode.table i → bucketOf t hashNode e.key = i
  nodup : ∀ i, ((hashNode.table i).map EntryNode.key).Nodup

/-- The invariant of a default table: the default strategy, the resize ratio 2,
and the structural invariant of its bucket array. -/
structure TableInv {α : Type} (t : HashTable α) : Prop where
  hash_eq : t.m_hashFunctor = ImplHashFunc
  cmp_eq : t.m_keyCmpFunctor = StrCompare
  ratio_eq : t.m_resizeRatio = 2
  node : NodeInv t t.m_hashTable

/-! ## Reference map -/

/-- The reference finite map: an association list. -/
abbrev RefMap (α : Type) := List (Key × α)

/-- Lookup in the reference map. -/
def RefMap.find {α : Type} (m : RefMap α) (key : Key) : Option α :=
  (List.find? (fun p => decide (p.1 = key)) m).map Prod.snd

/-- Insert-if-absent on the reference map: the result is true exactly when the
key is absent, and only then is the binding added. -/
def RefMap.insert {α : Type} (m : RefMap α) (key : Key) (value : α) : RefMap α × Bool :=
  if (RefMap.find m key).isNone then ((key, value) :: m, true) else (m, false)

/-- Erase on the reference map. -/
def RefMap.erase {α : Type} (m : RefMap α) (key : Key) : RefMap α :=
  List.filter (fun p => decide (p.1 ≠ key)) m

/-- Runs a sequence of calls on the reference map. -/
def RefMap.run {α : Type} (m : RefMap α) : List (Op α) → RefMap α × List Bool
  | [] => (m, [])
  | Op.Insert key value :: ops =>
    let r := RefMap.insert m key value
    let rest := RefMap.run r.1 ops
    (rest.1, r.2 :: rest.2)
  | Op.Delete key :: ops => RefMap.run (RefMap.erase m key) ops

/-- The bucket array that `InsertNode` leaves when the key is new: the entry is
linked at the head of its bucket, and `used` is incremented when that bucket was
empty. -/
def insertedNode {α : Type} (w : Nat) (t : HashTable α) (hashNode : HashNode α) (key : Key)
    (value : α) : HashNode α :=
  { hashNode with
    used := if (hashNode.table (bucketOf t hashNode key)).isEmpty
      then (hashNode.used + 1) % 2 ^ w else hashNode.used
    table := setBucket hashNode.table (bucketOf t hashNode key)
      ({ key := key, value := value } :: hashNode.table (bucketOf t hashNode key)) }

/-! ## Example states -/

/-- The default table after `Insert("Ab", 7)`, with a 64-bit `size_t`. -/
def oneKeyState : HashTable Nat := (Insert 64 fresh [65, 98] 7).1

/-- The default table after `Insert("Ab", 1)`, `Insert("BA", 2)`, `Insert("C ", 3)`,
`Delete("Ab")`, `Delete("BA")`, with a 64-bit `size_t`.  The three keys have the
same digest, so `used` is 1 after the inserts and wraps to `2^64 - 1` with the
second delete, while `"C "` is still stored. -/
def wrappedState : HashTable Nat :=
  Delete 64 (Delete 64 (Insert 64 (Insert 64 (Insert 64 fresh [65, 98] 1).1 [66, 65] 2).1
    [67, 32] 3).1 [65, 98]) [66, 65]

/-! ## The case-insensitive digest and the digest as specified -/

/-- The C library `tolower` in the "C" locale, on an `unsigned char` value: the
upper-case letters `'A'` .. `'Z'` map to `'a'` .. `'z'`, every other value to
itself. -/
def tolower (c : Int) : Int := if 65 ≤ c ∧ c ≤ 90 then c + 32 else c

/-- `ImplCaseHashFunc`: as `ImplHashFunc`, with `tolower` applied to each
character.  The buffer is read through `const unsigned char*`: a character of
`char` value `c` is read as `c % 256`. -/
def ImplCaseHashFunc (buf : Key) (len : Nat) : Nat :=
  (buf.take len).foldl (fun hash c => hashRound hash (tolower (c % 256))) 5381

/-- The digest in the words of the specification: the seed 5381, and for each
further character `c` the step from `h` to `(33 * h + c) mod 2^32`. -/
def digestSpec (s : List Int) : Int :=
  s.foldl (fun h c => (33 * h + c) % 4294967296) 5381

/-! ## Step-bounded loops of the prime search -/

/-- The loop of `IsPrime` run for at most `fuel` iterations; nothing when the
iterations are used up before the loop returns. -/
def IsPrime.loopFuel : Nat → Nat → Nat → Option Bool
  | 0, _, _ => none
  | fuel + 1, x, i =>
    let q := x / i
    if q < i then some true
    else if x = q * i then some false
    else IsPrime.loopFuel fuel x (i + 2)

/-- The search loop of `NextPrime` run for at most `fuel` tests of a candidate;
nothing when the tests are used up before a candidate is accepted. -/
def NextPrime.loopFuel : Nat → Nat → Option Nat
  | 0, _ => none
  | fuel + 1, x => if IsPrime x then some x else NextPrime.loopFuel fuel (x + 2)

/-! ## Occupancy -/

/-- The number of non-empty buckets of a bucket array. -/
def nonEmptyBuckets {α : Type} (hashNode : HashNode α) : Nat :=
  (List.range hashNode.size).countP (fun i => !(hashNode.table i).isEmpty)

/-- The sequence of calls `Insert(key, value)` for the listed pairs. -/
def insertOps {α : Type} (kvs : List (Key × α)) : List (Op α) :=
  kvs.map (fun p => Op.Insert p.1 p.2)

/-- The default table after `Insert("Ab", 1)`, `Insert("BA", 2)` and
`Delete("Ab")`, with a 64-bit `size_t`: the two keys share a bucket. -/
def collidedState : HashTable Nat :=
  Delete 64 (Insert 64 (Insert 64 fresh [65, 98] 1).1 [66, 65] 2).1 [65, 98]

/-- The state `collidedState` after `Delete("BA")`: the table is empty again. -/
def underflowState : HashTable Nat := Delete 64 collidedState [66, 65]

/-! ## Correctness of the prime search -/

/-- On an odd number from 3 on, `IsPrime` accepts only primes. -/
theorem prime_of_IsPrime {x : Nat} (h3 : 3 ≤ x) (hodd : x % 2 = 1) (h : IsPrime x = true) :
    x.Prime := by
  rw [IsPrime_iff] at h
  rw [Nat.prime_def_le_sqrt]
  refine ⟨by omega, fun m hm hle hdvd => ?_⟩
  have hsq : m * m ≤ x := Nat.le_sqrt.1 hle
  have hmodd : m % 2 = 1 := by
    rcases Nat.mod_two_eq_zero_or_one m with h0 | h1
    · exfalso
      have h2 : 2 ∣ x := Nat.dvd_trans (Nat.dvd_of_mod_eq_zero h0) hdvd
      omega
    · exact h1
  have hm3 : m = 3 + 2 * ((m - 3) / 2) := by omega
  rw [hm3] at hsq hdvd
  exact h _ hsq hdvd

/-- From an odd start from 3 on, the search loop stops at the least prime that
is not below the start. -/
theorem NextPrime.loop_spec (x : Nat) (h3 : 3 ≤ x) (hodd : x % 2 = 1) :
    (NextPrime.loop x).Prime ∧ x ≤ NextPrime.loop x ∧
      ∀ p, p.Prime → x ≤ p → NextPrime.loop x ≤ p := by
  induction x using NextPrime.loop.induct with
  | case1 x hx =>
    rw [NextPrime.loop, if_pos hx]
    exact ⟨prime_of_IsPrime h3 hodd hx, le_refl _, fun p _ hle => hle⟩
  | case2 x hx ih =>
    rw [NextPrime.loop, if_neg hx]
    obtain ⟨h1, h2, h4⟩ := ih (by omega) (by omega)
    refine ⟨h1, by omega, fun p hp hle => h4 p hp ?_⟩
    have hne : p ≠ x := by
      rintro rfl
      exact hx (IsPrime_of_prime hp)
    have hne1 : p ≠ x + 1 := by
      rintro rfl
      rcases hp.eq_two_or_odd with h | h <;> omega
    omega

/-- The candidate that `NextPrime` starts its search from, for `x > 2`. -/
theorem NextPrime_eq_loop {x : Nat} (hx : 2 < x) :
    NextPrime x = NextPrime.loop (if x % 2 = 0 then x + 1 else x) := by
  rw [NextPrime]
  simp only [show ¬ x ≤ 2 by omega, if_false, Nat.and_one_is_mod]

/-- `NextPrime x` is prime. -/
theorem NextPrime_prime (x : Nat) : (NextPrime x).Prime := by
  by_cases hx : x ≤ 2
  · rw [NextPrime]; simp only [hx, if_true]; exact Nat.prime_two
  · rw [NextPrime_eq_loop (by omega)]
    split
    · exact (NextPrime.loop_spec _ (by omega) (by omega)).1
    · exact (NextPrime.loop_spec _ (by omega) (by omega)).1

/-- `NextPrime x` is not below `x`. -/
theorem le_NextPrime (x : Nat) : x ≤ NextPrime x := by
  by_cases hx : x ≤ 2
  · rw [NextPrime]; simp only [hx, if_true]
  · rw [NextPrime_eq_loop (by omega)]
    split
    · have := (NextPrime.loop_spec (x + 1) (by omega) (by omega)).2.1
      omega
    · exact (NextPrime.loop_spec _ (by omega) (by omega)).2.1

/-- No prime lies between `x` and `NextPrime x`. -/
theorem NextPrime_le_of_prime {x p : Nat} (hp : p.Prime) (hle : x ≤ p) : NextPrime x ≤ p := by
  by_cases hx : x ≤ 2
  · rw [NextPrime]; simp only [hx, if_true]; exact hp.two_le
  · rw [NextPrime_eq_loop (by omega)]
    split
    · refine (NextPrime.loop_spec (x + 1) (by omega) (by omega)).2.2 p hp ?_
      have hne : p ≠ x := by
        rintro rfl
        rcases hp.eq_two_or_odd with h | h <;> omega
      omega
    · exact (NextPrime.loop_spec _ (by omega) (by omega)).2.2 p hp hle

/-! ## The default comparison decides equality of keys -/

theorem strcmp_eq_zero_iff (a b : Key) (hlen : a.length = b.length) :
    strcmp a b = 0 ↔ a = b := by
  induction a generalizing b with
  | nil =>
    cases b with
    | nil => simp [strcmp]
    | cons y t => simp at hlen
  | cons x s ih =>
    cases b with
    | nil => simp at hlen
    | cons y t =>
      simp only [List.length_cons, Nat.add_right_cancel_iff] at hlen
      by_cases hxy : x = y
      · subst hxy
        simp [strcmp, ih t hlen]
      · simp only [strcmp, hxy, if_false, List.cons.injEq, false_and, iff_false]
        split <;> decide

/-- `StrCompare` is true exactly on equal keys. -/
theorem StrCompare_iff (a b : Key) : StrCompare a b = true ↔ a = b := by
  simp only [StrCompare, strlen, Bool.and_eq_true, beq_iff_eq]
  constructor
  · rintro ⟨hlen, h⟩
    exact (strcmp_eq_zero_iff a b hlen).1 h
  · rintro rfl
    exact ⟨rfl, (strcmp_eq_zero_iff a a rfl).2 rfl⟩

/-! ## Chain walks -/

section Chain

variable {α : Type} (cmp : Key → Key → Bool)

theorem FindKeyIndex.walk_eq (key : Key) (chain : List (EntryNode α)) :
    FindKeyIndex.walk cmp key chain = (Find.walk cmp key chain).isSome := by
  induction chain with
  | nil => rfl
  | cons e c ih =>
    simp only [FindKeyIndex.walk, Find.walk]
    split
    · rfl
    · exact ih

theorem Delete.walk_none_iff_find_none (key : Key) (chain : List (EntryNode α)) :
    Delete.walk cmp key chain = none ↔ Find.walk cmp key chain = none := by
  induction chain with
  | nil => simp [Delete.walk, Find.walk]
  | cons e c ih =>
    simp only [Delete.walk, Find.walk]
    split
    · simp
    · simpa using ih

variable (hcmp : ∀ a b, cmp a b = true ↔ a = b)
include hcmp

theorem Find.walk_eq_none_iff (key : Key) (chain : List (EntryNode α)) :
    Find.walk cmp key chain = none ↔ ∀ e ∈ chain, e.key ≠ key := by
  induction chain with
  | nil => simp [Find.walk]
  | cons e c ih =>
    simp only [Find.walk, List.mem_cons, forall_eq_or_imp]
    by_cases h : cmp e.key key = true
    · rw [if_pos h]
      simp [(hcmp _ _).1 h]
    · have hne : e.key ≠ key := fun heq => h ((hcmp _ _).2 heq)
      rw [if_neg h]
      simp [hne, ih]

theorem Find.walk_eq_some_iff (key : Key) (v : α) (chain : List (EntryNode α))
    (hnd : (chain.map EntryNode.key).Nodup) :
    Find.walk cmp key chain = some v ↔ ∃ e ∈ chain, e.key = key ∧ e.value = v := by
  induction chain with
  | nil => simp [Find.walk]
  | cons e c ih =>
    simp only [List.map_cons, List.nodup_cons, List.mem_map, not_exists, not_and] at hnd
    simp only [Find.walk, List.mem_cons, exists_eq_or_imp]
    by_cases h : cmp e.key key = true
    · have heq : e.key = key := (hcmp _ _).1 h
      rw [if_pos h]
      simp only [Option.some.injEq, heq, true_and]
      constructor
      · intro hv; exact Or.inl hv
      · rintro (hv | ⟨e', he', hk, _⟩)
        · exact hv
        · exact absurd (hk.trans heq.symm) (hnd.1 e' he')
    · have hne : e.key ≠ key := fun heq => h ((hcmp _ _).2 heq)
      rw [if_neg h]
      simp only [hne, false_and, false_or]
      exact ih hnd.2

theorem Delete.walk_some (key : Key) (chain c : List (EntryNode α))
    (h : Delete.walk cmp key chain = some c) :
    c.Sublist chain ∧ ((chain.map EntryNode.key).Nodup → Find.walk cmp key c = none) ∧
      ∀ k, k ≠ key → Find.walk cmp k c = Find.walk cmp k chain := by
  induction chain generalizing c with
  | nil => simp [Delete.walk] at h
  | cons e rest ih =>
    simp only [Delete.walk] at h
    by_cases hc : cmp e.key key = true
    · have heq : e.key = key := (hcmp _ _).1 hc
      simp only [hc, if_true, Option.some.injEq] at h
      subst h
      refine ⟨List.sublist_cons_self _ _, ?_, ?_⟩
      · intro hnd
        simp only [List.map_cons, List.nodup_cons, List.mem_map, not_exists, not_and] at hnd
        rw [Find.walk_eq_none_iff cmp hcmp]
        intro e' he' hk
        exact hnd.1 e' he' (hk.trans heq.symm)
      · intro k hk
        have : ¬ cmp e.key k = true := fun h' => hk (((hcmp _ _).1 h').symm.trans heq)
        simp [Find.walk, this]
    · simp only [hc, if_false, Option.map_eq_some', Bool.false_eq_true] at h
      obtain ⟨c0, hc0, rfl⟩ := h
      obtain ⟨h1, h2, h3⟩ := ih c0 hc0
      refine ⟨h1.cons₂ _, ?_, ?_⟩
      · intro hnd
        simp only [List.map_cons, List.nodup_cons] at hnd
        simp only [Find.walk, hc, if_false, Bool.false_eq_true]
        exact h2 hnd.2
      · intro k hk
        simp only [Find.walk]
        rw [h3 k hk]

end Chain

/-! ## Insertion into a bucket array -/

section Node

variable {α : Type} (w : Nat) (t : HashTable α)

theorem Find_eq_lookupIn (key : Key) : Find t key = lookupIn t t.m_hashTable key := rfl

theorem InsertNode_absent (hashNode : HashNode α) (key : Key) (value : α)
    (h : lookupIn t hashNode key = none) :
    InsertNode w t hashNode key value = (insertedNode w t hashNode key value, true) := by
  have hw : FindKeyIndex.walk t.m_keyCmpFunctor key
      (hashNode.table (t.m_hashFunctor key (strlen key) % hashNode.size)) = false := by
    rw [FindKeyIndex.walk_eq]
    simp only [lookupIn, bucketOf] at h
    rw [h]; rfl
  have hne : ((t.m_hashFunctor key (strlen key) % hashNode.size : Nat) : Int) ≠ -1 := by omega
  simp only [InsertNode, FindKeyIndex, hw, Bool.false_eq_true, if_false, ne_eq, hne,
    not_false_eq_true, if_true, Int.toNat_ofNat, insertedNode, bucketOf]
  split <;> rfl

theorem InsertNode_present (hashNode : HashNode α) (key : Key) (value : α)
    (h : lookupIn t hashNode key ≠ none) :
    InsertNode w t hashNode key value = (hashNode, false) := by
  have hw : FindKeyIndex.walk t.m_keyCmpFunctor key
      (hashNode.table (t.m_hashFunctor key (strlen key) % hashNode.size)) = true := by
    rw [FindKeyIndex.walk_eq]
    simp only [lookupIn, bucketOf] at h
    exact Option.isSome_iff_ne_none.2 h
  have hemp : (hashNode.table (t.m_hashFunctor key (strlen key) % hashNode.size)).isEmpty
      = false := by
    cases hc : hashNode.table (t.m_hashFunctor key (strlen key) % hashNode.size) with
    | nil => rw [hc] at hw; simp [FindKeyIndex.walk] at hw
    | cons e c => rfl
  simp only [InsertNode, FindKeyIndex, hw, if_true, hemp, Bool.false_eq_true, if_false,
    ne_eq, not_true_eq_false]

theorem setBucket_same (table : Nat → List (EntryNode α)) (i : Nat) (c : List (EntryNode α)) :
    setBucket table i c i = c := by
  simp [setBucket]

theorem setBucket_other (table : Nat → List (EntryNode α)) {i j : Nat}
    (c : List (EntryNode α)) (h : j ≠ i) : setBucket table i c j = table j := by
  simp [setBucket, h]

theorem flatMap_setBucket_of_notMem (table : Nat → List (EntryNode α)) (i : Nat)
    (c : List (EntryNode α)) (l : List Nat) (h : i ∉ l) :
    l.flatMap (setBucket table i c) = l.flatMap table := by
  induction l with
  | nil => rfl
  | cons j l ih =>
    simp only [List.mem_cons, not_or] at h
    simp only [List.flatMap_cons, ih h.2, setBucket_other table c (Ne.symm h.1)]

/-- Replacing the chain of a bucket below `n` replaces its part of the entry list. -/
theorem flatMap_range_setBucket (table : Nat → List (EntryNode α)) (i n : Nat)
    (c : List (EntryNode α)) (h : i < n) :
    ((List.range n).flatMap (setBucket table i c)).Perm
      (c ++ ((List.range n).flatMap (setBucket table i []))) := by
  induction n with
  | zero => omega
  | succ n ih =>
    simp only [List.range_succ, List.flatMap_append, List.flatMap_cons, List.flatMap_nil,
      List.append_nil]
    by_cases hin : i = n
    · subst hin
      rw [flatMap_setBucket_of_notMem table i c _ (by simp),
        flatMap_setBucket_of_notMem table i [] _ (by simp), setBucket_same, setBucket_same,
        List.append_nil]
      exact List.perm_append_comm
    · have hlt : i < n := by omega
      rw [setBucket_other table c (Ne.symm hin), setBucket_other table [] (Ne.symm hin),
        ← List.append_assoc]
      exact (ih hlt).append_right _

theorem setBucket_self (table : Nat → List (EntryNode α)) (i : Nat) :
    setBucket table i (table i) = table := by
  funext j
  by_cases h : j = i
  · subst h; simp [setBucket]
  · simp [setBucket, h]

theorem setBucket_setBucket (table : Nat → List (EntryNode α)) (i : Nat)
    (c d : List (EntryNode α)) :
    setBucket (setBucket table i c) i d = setBucket table i d := by
  funext j
  by_cases h : j = i <;> simp [setBucket, h]

/-- Replacing the chain `table i` by `c` changes the entry list as the chain. -/
theorem nodeEntries_setBucket_perm (hashNode : HashNode α) (i : Nat)
    (c c' : List (EntryNode α)) (rest : List (EntryNode α)) (h : i < hashNode.size)
    (hc : c.Perm (rest ++ c')) (hold : hashNode.table i = c') :
    ((List.range hashNode.size).flatMap (setBucket hashNode.table i c)).Perm
      (rest ++ nodeEntries hashNode) := by
  have h1 := flatMap_range_setBucket hashNode.table i hashNode.size c h
  have h2 := flatMap_range_setBucket hashNode.table i hashNode.size (hashNode.table i) h
  rw [setBucket_self] at h2
  refine h1.trans ?_
  rw [nodeEntries]
  refine List.Perm.trans ?_ (h2.symm.append_left rest)
  rw [← List.append_assoc, hold]
  exact hc.append_right _

variable (hcmp : ∀ a b, t.m_keyCmpFunctor a b = true ↔ a = b)
include hcmp

theorem lookupIn_insertedNode (hashNode : HashNode α) (key : Key) (value : α) (k : Key) :
    lookupIn t (insertedNode w t hashNode key value) k =
      if k = key then some value else lookupIn t hashNode k := by
  by_cases hk : k = key
  · subst hk
    simp only [lookupIn, insertedNode, bucketOf, setBucket_same, Find.walk, if_true,
      (hcmp k k).2 rfl]
  · rw [if_neg hk]
    by_cases hb : bucketOf t hashNode k = bucketOf t hashNode key
    · have hne : ¬ t.m_keyCmpFunctor key k = true := fun h => hk ((hcmp _ _).1 h).symm
      simp only [bucketOf] at hb
      simp only [lookupIn, insertedNode, bucketOf, hb, setBucket_same, Find.walk, hne, if_false,
        Bool.false_eq_true]
    · simp only [bucketOf] at hb
      simp only [lookupIn, insertedNode, bucketOf, setBucket_other _ _ hb]

theorem NodeInv_insertedNode (hashNode : HashNode α) (key : Key) (value : α)
    (hinv : NodeInv t hashNode) (habs : lookupIn t hashNode key = none) :
    NodeInv t (insertedNode w t hashNode key value) := by
  refine ⟨hinv.size_pos, ?_, ?_⟩
  · intro i e he
    by_cases hi : i = bucketOf t hashNode key
    · subst hi
      simp only [insertedNode, setBucket_same, List.mem_cons] at he
      rcases he with rfl | he
      · rfl
      · exact hinv.bucket _ e he
    · simp only [insertedNode, setBucket_other _ _ hi] at he
      exact hinv.bucket i e he
  · intro i
    by_cases hi : i = bucketOf t hashNode key
    · subst hi
      simp only [insertedNode, setBucket_same, List.map_cons, List.nodup_cons, List.mem_map,
        not_exists, not_and]
      refine ⟨?_, hinv.nodup _⟩
      intro e he
      exact (Find.walk_eq_none_iff _ hcmp key _).1 habs e he
    · simp only [insertedNode, setBucket_other _ _ hi]
      exact hinv.nodup i

omit hcmp in
theorem nodeEntries_insertedNode (hashNode : HashNode α) (key : Key) (value : α)
    (hinv : NodeInv t hashNode) :
    (nodeEntries (insertedNode w t hashNode key value)).Perm
      ({ key := key, value := value } :: nodeEntries hashNode) := by
  have hlt : bucketOf t hashNode key < hashNode.size := Nat.mod_lt _ hinv.size_pos
  exact nodeEntries_setBucket_perm hashNode _ _ _ [_] hlt (List.Perm.refl _) rfl

end Node

/-! ## Membership semantics of the lookup -/

section Lookup

variable {α : Type} (t : HashTable α)

theorem mem_nodeEntries_iff (hashNode : HashNode α) (e : EntryNode α) :
    e ∈ nodeEntries hashNode ↔ ∃ i, i < hashNode.size ∧ e ∈ hashNode.table i := by
  simp [nodeEntries]

/-- No key occurs twice among the entries of a bucket array that satisfies the
invariant. -/
theorem nodeEntries_keys_nodup (hashNode : HashNode α) (hinv : NodeInv t hashNode) :
    ((nodeEntries hashNode).map EntryNode.key).Nodup := by
  rw [nodeEntries, List.map_flatMap, List.nodup_flatMap]
  refine ⟨fun i _ => hinv.nodup i, ?_⟩
  refine (List.nodup_range _).pairwise_of_forall_ne ?_
  intro i _ j _ hij
  simp only [Function.onFun]
  rw [List.disjoint_left]
  intro k hi hj
  simp only [List.mem_map] at hi hj
  obtain ⟨e, he, rfl⟩ := hi
  obtain ⟨e', he', hk⟩ := hj
  have h1 := hinv.bucket i e he
  have h2 := hinv.bucket j e' he'
  rw [hk] at h2
  exact hij (h1.symm.trans h2)

variable (hcmp : ∀ a b, t.m_keyCmpFunctor a b = true ↔ a = b)
include hcmp

/-- Under the invariant, the lookup finds a value exactly when an entry with
that key and value is stored. -/
theorem lookupIn_eq_some_iff (hashNode : HashNode α) (hinv : NodeInv t hashNode)
    (k : Key) (v : α) :
    lookupIn t hashNode k = some v ↔ ∃ e ∈ nodeEntries hashNode, e.key = k ∧ e.value = v := by
  rw [lookupIn, Find.walk_eq_some_iff _ hcmp k v _ (hinv.nodup _)]
  constructor
  · rintro ⟨e, he, hk, hv⟩
    refine ⟨e, ?_, hk, hv⟩
    rw [mem_nodeEntries_iff]
    exact ⟨_, Nat.mod_lt _ hinv.size_pos, he⟩
  · rintro ⟨e, he, hk, hv⟩
    rw [mem_nodeEntries_iff] at he
    obtain ⟨i, _, hi⟩ := he
    have := hinv.bucket i e hi
    rw [hk] at this
    rw [this]
    exact ⟨e, hi, hk, hv⟩

/-- Two bucket arrays with the same entries up to order give the same lookups. -/
theorem lookupIn_congr_of_perm (hn hn' : HashNode α) (hinv : NodeInv t hn)
    (hinv' : NodeInv t hn') (hperm : (nodeEntries hn').Perm (nodeEntries hn)) (k : Key) :
    lookupIn t hn' k = lookupIn t hn k := by
  apply Option.ext
  intro v
  simp only [Option.mem_def]
  rw [lookupIn_eq_some_iff t hcmp hn' hinv', lookupIn_eq_some_iff t hcmp hn hinv]
  constructor
  · rintro ⟨e, he, h⟩; exact ⟨e, hperm.subset he, h⟩
  · rintro ⟨e, he, h⟩; exact ⟨e, hperm.symm.subset he, h⟩

end Lookup

/-! ## The migration of `Rehash` -/

section Migrate

variable {α : Type} (w : Nat) (t : HashTable α)

theorem foldl_flatMap_eq {β γ δ : Type} (f : β → List γ) (g : δ → γ → δ) (l : List β)
    (init : δ) :
    l.foldl (fun acc i => (f i).foldl g acc) init = (l.flatMap f).foldl g init := by
  induction l generalizing init with
  | nil => rfl
  | cons a l ih => simp only [List.foldl_cons, List.flatMap_cons, List.foldl_append, ih]

/-- The migration inserts the stored entries one after the other. -/
theorem migrate_eq_foldl (newHashNode : HashNode α) :
    Rehash.migrate w t newHashNode =
      (entries t).foldl
        (fun hashNode entryNode => (InsertNode w t hashNode entryNode.key entryNode.value).1)
        newHashNode := by
  rw [Rehash.migrate, foldl_flatMap_eq]
  rfl

theorem InsertNode_size (hashNode : HashNode α) (key : Key) (value : α) :
    (InsertNode w t hashNode key value).1.size = hashNode.size := by
  by_cases h : lookupIn t hashNode key = none
  · rw [InsertNode_absent w t hashNode key value h]; rfl
  · rw [InsertNode_present w t hashNode key value h]

theorem foldl_InsertNode_size (l : List (EntryNode α)) (hashNode : HashNode α) :
    (l.foldl (fun hashNode entryNode =>
      (InsertNode w t hashNode entryNode.key entryNode.value).1) hashNode).size
      = hashNode.size := by
  induction l generalizing hashNode with
  | nil => rfl
  | cons e l ih => rw [List.foldl_cons, ih, InsertNode_size]

variable (hcmp : ∀ a b, t.m_keyCmpFunctor a b = true ↔ a = b)
include hcmp

/-- Inserting entries of pairwise distinct keys, none of them stored yet, keeps
the invariant and adds exactly these entries. -/
theorem foldl_InsertNode_spec (l : List (EntryNode α)) (hashNode : HashNode α)
    (hinv : NodeInv t hashNode) (hnd : (l.map EntryNode.key).Nodup)
    (hnew : ∀ e ∈ l, lookupIn t hashNode e.key = none) :
    NodeInv t (l.foldl (fun hashNode entryNode =>
        (InsertNode w t hashNode entryNode.key entryNode.value).1) hashNode) ∧
      (nodeEntries (l.foldl (fun hashNode entryNode =>
        (InsertNode w t hashNode entryNode.key entryNode.value).1) hashNode)).Perm
        (l ++ nodeEntries hashNode) := by
  induction l generalizing hashNode with
  | nil => exact ⟨hinv, List.Perm.refl _⟩
  | cons e l ih =>
    simp only [List.map_cons, List.nodup_cons, List.mem_map, not_exists, not_and] at hnd
    have habs : lookupIn t hashNode e.key = none := hnew e (List.mem_cons_self _ _)
    rw [List.foldl_cons, InsertNode_absent w t hashNode e.key e.value habs]
    have hinv1 := NodeInv_insertedNode w t hcmp hashNode e.key e.value hinv habs
    have hnew1 : ∀ e' ∈ l, lookupIn t (insertedNode w t hashNode e.key e.value) e'.key = none := by
      intro e' he'
      rw [lookupIn_insertedNode w t hcmp]
      have hne : e'.key ≠ e.key := fun h => hnd.1 e' he' h
      rw [if_neg hne]
      exact hnew e' (List.mem_cons_of_mem _ he')
    obtain ⟨h1, h2⟩ := ih _ hinv1 hnd.2 hnew1
    refine ⟨h1, h2.trans ?_⟩
    have h3 := nodeEntries_insertedNode w t hashNode e.key e.value hinv
    refine (h3.append_left l).trans ?_
    exact List.perm_middle

end Migrate

/-! ## The public operations on a table that satisfies the invariant -/

section Table

variable {α : Type} (w : Nat) (t : HashTable α)

theorem TableInv.cmp_iff {t : HashTable α} (hinv : TableInv t) (a b : Key) :
    t.m_keyCmpFunctor a b = true ↔ a = b := by
  rw [hinv.cmp_eq]
  exact StrCompare_iff a b

theorem Rehash_of_not_growth (h : ¬ GrowthCondition t) : Rehash w t = t := by
  rw [Rehash, if_neg h]

theorem Rehash_of_growth (h : GrowthCondition t) :
    Rehash w t =
      { t with
        m_hashTable :=
          Rehash.migrate w t (HashNode.ofSize (NextPrime (t.m_hashTable.size * 2))) } := by
  rw [Rehash, if_pos h]

theorem nodeEntries_ofSize (n : Nat) : nodeEntries (HashNode.ofSize n : HashNode α) = [] := by
  simp [nodeEntries, HashNode.ofSize, HashNode.Init]

theorem NodeInv_ofSize (n : Nat) (hn : 0 < n) : NodeInv t (HashNode.ofSize n) :=
  ⟨hn, fun _ _ he => by simp [HashNode.ofSize, HashNode.Init] at he,
    fun _ => by simp [HashNode.ofSize, HashNode.Init]⟩

theorem NodeInv.congr {t t' : HashTable α} {hashNode : HashNode α}
    (h : NodeInv t hashNode) (hf : t'.m_hashFunctor = t.m_hashFunctor) :
    NodeInv t' hashNode :=
  ⟨h.size_pos, fun i e he => by
    have := h.bucket i e he
    simp only [bucketOf] at this ⊢
    rw [hf]; exact this, h.nodup⟩

/-- The migration of a table that satisfies the invariant: the new bucket array
satisfies it too and holds the same entries up to order. -/
theorem migrate_spec (hinv : TableInv t) (n : Nat) (hn : 0 < n) :
    NodeInv t (Rehash.migrate w t (HashNode.ofSize n)) ∧
      (nodeEntries (Rehash.migrate w t (HashNode.ofSize n))).Perm (entries t) := by
  rw [migrate_eq_foldl]
  have h := foldl_InsertNode_spec w t hinv.cmp_iff (entries t) (HashNode.ofSize n)
    (NodeInv_ofSize t n hn) (nodeEntries_keys_nodup t _ hinv.node)
    (fun e _ => by simp [lookupIn, HashNode.ofSize, HashNode.Init, Find.walk])
  rw [nodeEntries_ofSize, List.append_nil] at h
  exact h

theorem migrate_size (newHashNode : HashNode α) :
    (Rehash.migrate w t newHashNode).size = newHashNode.size := by
  rw [migrate_eq_foldl, foldl_InsertNode_size]

theorem Rehash_inv (hinv : TableInv t) : TableInv (Rehash w t) := by
  by_cases h : GrowthCondition t
  · rw [Rehash_of_growth w t h]
    have hpos : 0 < NextPrime (t.m_hashTable.size * 2) := (NextPrime_prime _).pos
    exact ⟨hinv.hash_eq, hinv.cmp_eq, hinv.ratio_eq,
      NodeInv.congr (migrate_spec w t hinv _ hpos).1 rfl⟩
  · rw [Rehash_of_not_growth w t h]; exact hinv

theorem Rehash_entries (hinv : TableInv t) : (entries (Rehash w t)).Perm (entries t) := by
  by_cases h : GrowthCondition t
  · rw [Rehash_of_growth w t h]
    have hpos : 0 < NextPrime (t.m_hashTable.size * 2) := (NextPrime_prime _).pos
    exact (migrate_spec w t hinv _ hpos).2
  · rw [Rehash_of_not_growth w t h]

theorem Rehash_find (hinv : TableInv t) (k : Key) : Find (Rehash w t) k = Find t k := by
  by_cases h : GrowthCondition t
  · have hpos : 0 < NextPrime (t.m_hashTable.size * 2) := (NextPrime_prime _).pos
    have hm := migrate_spec w t hinv _ hpos
    rw [Rehash_of_growth w t h]
    exact lookupIn_congr_of_perm t hinv.cmp_iff _ _ hinv.node hm.1 hm.2 k
  · rw [Rehash_of_not_growth w t h]

theorem Rehash_size_of_growth (h : GrowthCondition t) :
    (Rehash w t).m_hashTable.size = NextPrime (t.m_hashTable.size * 2) := by
  rw [Rehash_of_growth w t h]
  exact migrate_size w t _

/-- What the public `Insert` does on a table that satisfies the invariant. -/
theorem Insert_spec (hinv : TableInv t) (key : Key) (value : α) :
    (Insert w t key value).2 = (Find t key).isNone ∧ TableInv (Insert w t key value).1 ∧
      ∀ k, Find (Insert w t key value).1 k =
        if (Find t key).isNone = true ∧ k = key then some value else Find t k := by
  have hinv1 := Rehash_inv w t hinv
  have hfind1 := Rehash_find w t hinv
  by_cases habs : Find t key = none
  · have h1 : lookupIn (Rehash w t) (Rehash w t).m_hashTable key = none := by
      rw [← Find_eq_lookupIn, hfind1, habs]
    have hI : Insert w t key value =
        ({ Rehash w t with
            m_hashTable := insertedNode w (Rehash w t) (Rehash w t).m_hashTable key value },
          true) := by
      simp only [Insert, InsertNode_absent w (Rehash w t) _ key value h1]
    rw [hI]
    refine ⟨by rw [habs]; rfl, ⟨hinv1.hash_eq, hinv1.cmp_eq, hinv1.ratio_eq, ?_⟩, ?_⟩
    · exact NodeInv.congr
        (NodeInv_insertedNode w (Rehash w t) hinv1.cmp_iff _ key value hinv1.node h1) rfl
    · intro k
      have := lookupIn_insertedNode w (Rehash w t) hinv1.cmp_iff (Rehash w t).m_hashTable
        key value k
      rw [← Find_eq_lookupIn, hfind1] at this
      simp only [habs, Option.isNone_none, true_and]
      exact this
  · have h1 : lookupIn (Rehash w t) (Rehash w t).m_hashTable key ≠ none := by
      rw [← Find_eq_lookupIn, hfind1]; exact habs
    have hI : Insert w t key value = (Rehash w t, false) := by
      simp only [Insert, InsertNode_present w (Rehash w t) _ key value h1]
    rw [hI]
    refine ⟨?_, hinv1, ?_⟩
    · cases hf : Find t key with
      | none => exact absurd hf habs
      | some v => rfl
    · intro k
      have hn : ¬ (Find t key).isNone = true := by
        cases hf : Find t key with
        | none => exact absurd hf habs
        | some v => simp
      simp only [hn, false_and, if_false]
      exact hfind1 k

/-- What `Delete` does on a table that satisfies the invariant. -/
theorem Delete_spec (hinv : TableInv t) (key : Key) :
    TableInv (Delete w t key) ∧
      ∀ k, Find (Delete w t key) k = if k = key then none else Find t k := by
  cases hd : Delete.walk t.m_keyCmpFunctor key
      (t.m_hashTable.table (t.m_hashFunctor key (strlen key) % t.m_hashTable.size)) with
  | none =>
    have hD : Delete w t key = t := by
      simp only [Delete, hd]
    rw [hD]
    refine ⟨hinv, fun k => ?_⟩
    by_cases hk : k = key
    · rw [if_pos hk, hk]
      exact (Delete.walk_none_iff_find_none _ key _).1 hd
    · rw [if_neg hk]
  | some c =>
    have hD : Delete w t key =
        { t with
          m_hashTable :=
            { t.m_hashTable with
              table := setBucket t.m_hashTable.table (bucketOf t t.m_hashTable key) c
              used := (t.m_hashTable.used + (2 ^ w - 1)) % 2 ^ w } } := by
      simp only [Delete, hd, bucketOf]
    obtain ⟨hsub, hgone, hother⟩ := Delete.walk_some _ hinv.cmp_iff key _ c hd
    rw [hD]
    refine ⟨⟨hinv.hash_eq, hinv.cmp_eq, hinv.ratio_eq, hinv.node.size_pos, ?_, ?_⟩, ?_⟩
    · intro i e he
      by_cases hi : i = bucketOf t t.m_hashTable key
      · subst hi
        simp only [setBucket_same] at he
        exact hinv.node.bucket _ e (hsub.subset he)
      · simp only [setBucket_other _ _ hi] at he
        exact hinv.node.bucket i e he
    · intro i
      by_cases hi : i = bucketOf t t.m_hashTable key
      · subst hi
        simp only [setBucket_same]
        exact (hinv.node.nodup _).sublist (hsub.map _)
      · simp only [setBucket_other _ _ hi]
        exact hinv.node.nodup i
    · intro k
      by_cases hk : k = key
      · subst hk
        rw [if_pos rfl]
        show Find.walk _ k (setBucket _ (bucketOf t t.m_hashTable k) c
          (bucketOf t t.m_hashTable k)) = none
        rw [setBucket_same]
        exact hgone (hinv.node.nodup _)
      · rw [if_neg hk]
        by_cases hb : t.m_hashFunctor k (strlen k) % t.m_hashTable.size
            = bucketOf t t.m_hashTable key
        · simp only [Find, hb, setBucket_same]
          rw [hother k hk]; rfl
        · simp only [Find, setBucket_other _ _ hb]

theorem TableInv_fresh : TableInv (fresh : HashTable α) :=
  ⟨rfl, rfl, rfl, (by show 0 < 689981; decide), fun _ _ he => by simp [fresh, new, Init, HashNode.Init] at he,
    fun _ => by simp [fresh, new, Init, HashNode.Init]⟩

/-- Every reachable table satisfies the invariant. -/
theorem Reachable.inv {t : HashTable α} (h : Reachable w t) : TableInv t := by
  induction h with
  | fresh => exact TableInv_fresh
  | insert key value _ ih => exact (Insert_spec w _ ih key value).2.1
  | delete key _ ih => exact (Delete_spec w _ ih key).1

end Table

/-! ## The reference map -/

section Ref

variable {α : Type}

theorem RefMap.find_insert (m : RefMap α) (key : Key) (value : α) (k : Key) :
    RefMap.find (RefMap.insert m key value).1 k =
      if (RefMap.find m key).isNone = true ∧ k = key then some value else RefMap.find m k := by
  by_cases h : (RefMap.find m key).isNone = true
  · simp only [RefMap.insert, h, if_true, true_and]
    by_cases hk : k = key
    · subst hk
      simp [RefMap.find, List.find?]
    · have hk' : ¬ key = k := fun h => hk h.symm
      simp [RefMap.find, List.find?, hk, hk']
  · simp only [RefMap.insert, h, if_false, false_and, Bool.false_eq_true]

theorem RefMap.find_erase (m : RefMap α) (key : Key) (k : Key) :
    RefMap.find (RefMap.erase m key) k = if k = key then none else RefMap.find m k := by
  induction m with
  | nil => simp [RefMap.find, RefMap.erase]
  | cons p m ih =>
    simp only [RefMap.find, RefMap.erase] at ih ⊢
    by_cases hp : p.1 = key
    · simp only [List.filter, hp, ne_eq, not_true_eq_false, decide_False, List.find?]
      rw [ih]
      by_cases hk : k = key
      · simp [hk]
      · have : ¬ key = k := fun h => hk h.symm
        simp [hk, this]
    · simp only [List.filter, hp, ne_eq, not_false_eq_true, decide_True, List.find?]
      by_cases hpk : p.1 = k
      · have hk : ¬ k = key := fun h => hp (hpk.trans h)
        simp [hpk, hk]
      · simp only [hpk, decide_False]
        exact ih

end Ref

/-! ## Refinement of the reference map -/

section Refine

variable {α : Type} (w : Nat)

/-- From a table that satisfies the invariant and agrees with a reference map,
every sequence of calls gives the same `Insert` results on both and leaves them
in agreement. -/
theorem run_refines (ops : List (Op α)) (t : HashTable α) (m : RefMap α)
    (hinv : TableInv t) (hagree : ∀ k, Find t k = RefMap.find m k) :
    (run w t ops).2 = (RefMap.run m ops).2 ∧
      ∀ k, Find (run w t ops).1 k = RefMap.find (RefMap.run m ops).1 k := by
  induction ops generalizing t m with
  | nil => exact ⟨rfl, hagree⟩
  | cons op ops ih =>
    cases op with
    | Insert key value =>
      obtain ⟨hr, hinv', hfind⟩ := Insert_spec w t hinv key value
      have hagree' : ∀ k, Find (Insert w t key value).1 k =
          RefMap.find (RefMap.insert m key value).1 k := by
        intro k
        rw [hfind k, RefMap.find_insert, hagree key, hagree k]
      obtain ⟨h1, h2⟩ := ih _ _ hinv' hagree'
      refine ⟨?_, h2⟩
      simp only [run, RefMap.run]
      rw [h1, hr, hagree key]
      congr 1
      by_cases hn : (RefMap.find m key).isNone = true
      · simp only [RefMap.insert, hn, if_true]
      · simp only [RefMap.insert, hn, if_false, Bool.false_eq_true]
    | Delete key =>
      obtain ⟨hinv', hfind⟩ := Delete_spec w t hinv key
      have hagree' : ∀ k, Find (Delete w t key) k = RefMap.find (RefMap.erase m key) k := by
        intro k
        rw [hfind k, RefMap.find_erase, hagree k]
      exact ih _ _ hinv' hagree'

end Refine

/-! ## Reachable states are the states that sequences of calls produce -/

section Run

variable {α : Type} (w : Nat)

theorem run_append (t : HashTable α) (ops ops' : List (Op α)) :
    (run w t (ops ++ ops')).1 = (run w (run w t ops).1 ops').1 := by
  induction ops generalizing t with
  | nil => rfl
  | cons op ops ih =>
    cases op with
    | Insert key value => exact ih _
    | Delete key => exact ih _

/-- A sequence of calls leads from a reachable state to a reachable state. -/
theorem Reachable.after_run {t : HashTable α} (h : Reachable w t) (ops : List (Op α)) :
    Reachable w (HashTable.run w t ops).1 := by
  induction ops generalizing t with
  | nil => exact h
  | cons op ops ih =>
    cases op with
    | Insert key value => exact ih (Reachable.insert key value h)
    | Delete key => exact ih (Reachable.delete key h)

/-- The reachable states are those that a sequence of `Insert` and `Delete`
calls produces from the fresh default table. -/
theorem reachable_iff_run (t : HashTable α) :
    Reachable w t ↔ ∃ ops : List (Op α), t = (HashTable.run w fresh ops).1 := by
  constructor
  · intro h
    induction h with
    | fresh => exact ⟨[], rfl⟩
    | insert key value _ ih =>
      obtain ⟨ops, rfl⟩ := ih
      exact ⟨ops ++ [Op.Insert key value], by rw [run_append]; rfl⟩
    | delete key _ ih =>
      obtain ⟨ops, rfl⟩ := ih
      exact ⟨ops ++ [Op.Delete key], by rw [run_append]; rfl⟩
  · rintro ⟨ops, rfl⟩
    exact Reachable.fresh.after_run w ops

end Run

/-! ## The example states -/

theorem Insert_size (w : Nat) {α : Type} (t : HashTable α) (key : Key) (value : α) :
    (Insert w t key value).1.m_hashTable.size = (Rehash w t).m_hashTable.size :=
  InsertNode_size w (Rehash w t) _ key value

theorem Insert_of_not_growth_of_present (w : Nat) {α : Type} (t : HashTable α) (key : Key)
    (value : α) (hg : ¬ GrowthCondition t) (hp : Find t key ≠ none) :
    Insert w t key value = (t, false) := by
  simp only [Insert, Rehash_of_not_growth w t hg, InsertNode_present w t _ key value hp]

/-- `Delete` of a key that `Find` does not find changes nothing, in any table
state. -/
theorem Delete_of_absent (w : Nat) {α : Type} (t : HashTable α) (key : Key)
    (habs : Find t key = none) : Delete w t key = t := by
  have hw : Delete.walk t.m_keyCmpFunctor key
      (t.m_hashTable.table (t.m_hashFunctor key (strlen key) % t.m_hashTable.size)) = none :=
    (Delete.walk_none_iff_find_none _ key _).2 habs
  simp only [Delete, hw]

theorem reachable_oneKeyState : Reachable 64 oneKeyState :=
  Reachable.insert _ _ Reachable.fresh

theorem reachable_wrappedState : Reachable 64 wrappedState :=
  Reachable.delete _ (Reachable.delete _ (Reachable.insert _ _ (Reachable.insert _ _
    (Reachable.insert _ _ Reachable.fresh))))

theorem growth_wrappedState : GrowthCondition wrappedState := by decide


/-! ## The digests -/

/-- One round of the digest loop is the step `33 * h + c` modulo `2^32`. -/
theorem hashRound_eq (h : Nat) (c : Int) :
    (hashRound h c : Int) = (33 * (h : Int) + c) % 4294967296 := by
  unfold hashRound
  rw [Int.toNat_of_nonneg (Int.emod_nonneg _ (by decide))]
  omega

theorem foldl_hashRound_eq (s : List Int) (h : Nat) :
    ((s.foldl hashRound h : Nat) : Int) =
      s.foldl (fun a c => (33 * a + c) % 4294967296) (h : Int) := by
  induction s generalizing h with
  | nil => rfl
  | cons c s ih => rw [List.foldl_cons, List.foldl_cons, ih, hashRound_eq]

/-- `ImplHashFunc` on the whole key is the digest as specified. -/
theorem ImplHashFunc_eq_digestSpec (s : Key) :
    ((ImplHashFunc s (strlen s) : Nat) : Int) = digestSpec s := by
  rw [ImplHashFunc, strlen, List.take_length, digestSpec]
  exact foldl_hashRound_eq s 5381

theorem digestSpec_append (s : List Int) (c : Int) :
    digestSpec (s ++ [c]) = (33 * digestSpec s + c) % 4294967296 := by
  simp [digestSpec, List.foldl_append]

/-- The 32-bit shift form `(h << 5) + h` is `33 * h` modulo `2^32`. -/
theorem shift_add_eq (h : Nat) :
    ((h <<< 5) % 4294967296 + h) % 4294967296 = 33 * h % 4294967296 := by
  rw [Nat.shiftLeft_eq]
  omega

theorem tolower_mod_of_ascii {c : Int} (h : 0 ≤ c ∧ c ≤ 127) :
    tolower (c % 256) = tolower c := by
  have : c % 256 = c := by omega
  rw [this]

theorem foldl_case_eq (s : List Int) (h : Nat) (hs : ∀ c ∈ s, 0 ≤ c ∧ c ≤ 127) :
    s.foldl (fun hash c => hashRound hash (tolower (c % 256))) h =
      (s.map tolower).foldl hashRound h := by
  induction s generalizing h with
  | nil => rfl
  | cons c s ih =>
    rw [List.map_cons, List.foldl_cons, List.foldl_cons,
      tolower_mod_of_ascii (hs c (List.mem_cons_self _ _))]
    exact ih _ (fun c' hc' => hs c' (List.mem_cons_of_mem _ hc'))

/-- On an ASCII string, `ImplCaseHashFunc` is `ImplHashFunc` of the lower-cased
string. -/
theorem ImplCaseHashFunc_eq (s : Key) (hs : ∀ c ∈ s, 0 ≤ c ∧ c ≤ 127) :
    ImplCaseHashFunc s (strlen s) = ImplHashFunc (s.map tolower) (strlen s) := by
  have h1 : (s.map tolower).take (strlen s) = s.map tolower := by
    rw [strlen, ← List.length_map s tolower, List.take_length]
  rw [ImplCaseHashFunc, ImplHashFunc, h1, strlen, List.take_length]
  exact foldl_case_eq s 5381 hs


/-! ## The occupancy counter and the number of non-empty buckets -/

section Count

variable {α : Type}

theorem countP_range_congr (p p' : Nat → Bool) (n : Nat) (h : ∀ j, j < n → p' j = p j) :
    (List.range n).countP p' = (List.range n).countP p := by
  induction n with
  | zero => rfl
  | succ n ih =>
    rw [List.range_succ, List.countP_append, List.countP_append,
      ih (fun j hj => h j (by omega))]
    simp only [List.countP_cons, List.countP_nil, h n (by omega)]

/-- Changing a predicate at one index below `n` changes its count on `range n` by
the change at that index. -/
theorem countP_range_update (p p' : Nat → Bool) (idx n : Nat) (h : idx < n)
    (hagree : ∀ j, j ≠ idx → p' j = p j) :
    (List.range n).countP p' + (if p idx = true then 1 else 0) =
      (List.range n).countP p + (if p' idx = true then 1 else 0) := by
  induction n with
  | zero => omega
  | succ n ih =>
    rw [List.range_succ, List.countP_append, List.countP_append]
    simp only [List.countP_cons, List.countP_nil]
    by_cases hin : idx = n
    · subst hin
      rw [countP_range_congr p p' idx (fun j hj => hagree j (by omega))]
      omega
    · have := ih (by omega)
      rw [hagree n (fun h' => hin h'.symm)]
      omega

theorem nonEmptyBuckets_le_size (hashNode : HashNode α) :
    nonEmptyBuckets hashNode ≤ hashNode.size := by
  have := List.countP_le_length (fun i => !(hashNode.table i).isEmpty)
    (l := List.range hashNode.size)
  rwa [List.length_range] at this

/-- A non-empty bucket below the bucket count makes the number of non-empty
buckets positive. -/
theorem nonEmptyBuckets_pos (hashNode : HashNode α) (i : Nat) (hi : i < hashNode.size)
    (hne : (hashNode.table i).isEmpty = false) : 0 < nonEmptyBuckets hashNode := by
  rw [nonEmptyBuckets, List.countP_pos_iff]
  exact ⟨i, List.mem_range.2 hi, by simp [hne]⟩

theorem nonEmptyBuckets_ofSize (n : Nat) :
    nonEmptyBuckets (HashNode.ofSize n : HashNode α) = 0 := by
  simp [nonEmptyBuckets, HashNode.ofSize, HashNode.Init]

variable (w : Nat) (t : HashTable α)

/-- `InsertNode` of a new key adds one non-empty bucket exactly when the bucket of
the key was empty. -/
theorem nonEmptyBuckets_insertedNode (hashNode : HashNode α) (key : Key) (value : α)
    (hpos : 0 < hashNode.size) :
    nonEmptyBuckets (insertedNode w t hashNode key value) =
      nonEmptyBuckets hashNode +
        (if (hashNode.table (bucketOf t hashNode key)).isEmpty = true then 1 else 0) := by
  have hlt : bucketOf t hashNode key < hashNode.size := Nat.mod_lt _ hpos
  have h := countP_range_update (fun i => !(hashNode.table i).isEmpty)
    (fun i => !((insertedNode w t hashNode key value).table i).isEmpty)
    (bucketOf t hashNode key) hashNode.size hlt
    (fun j hj => by simp only [insertedNode, setBucket_other _ _ hj])
  simp only [insertedNode, setBucket_same, List.isEmpty_cons, Bool.not_false, if_true] at h
  simp only [nonEmptyBuckets, insertedNode]
  cases hc : (hashNode.table (bucketOf t hashNode key)).isEmpty
  · simp only [hc, Bool.not_false, if_true, Bool.false_eq_true, if_false] at h ⊢
    omega
  · simp only [hc, Bool.not_true, Bool.false_eq_true, if_false, if_true] at h ⊢
    omega

/-- `InsertNode` keeps the counter equal, modulo `2^w`, to the number of
non-empty buckets. -/
theorem InsertNode_counter (hashNode : HashNode α) (key : Key) (value : α)
    (hpos : 0 < hashNode.size)
    (hc : hashNode.used = nonEmptyBuckets hashNode % 2 ^ w) :
    (InsertNode w t hashNode key value).1.used =
      nonEmptyBuckets (InsertNode w t hashNode key value).1 % 2 ^ w := by
  by_cases h : lookupIn t hashNode key = none
  · rw [InsertNode_absent w t hashNode key value h,
      nonEmptyBuckets_insertedNode w t hashNode key value hpos]
    simp only [insertedNode]
    cases he : (hashNode.table (bucketOf t hashNode key)).isEmpty
    · simp only [Bool.false_eq_true, if_false, Nat.add_zero]
      exact hc
    · simp only [if_true]
      rw [hc, Nat.mod_add_mod]
  · rw [InsertNode_present w t hashNode key value h]
    exact hc

theorem foldl_InsertNode_counter (l : List (EntryNode α)) (hashNode : HashNode α)
    (hpos : 0 < hashNode.size)
    (hc : hashNode.used = nonEmptyBuckets hashNode % 2 ^ w) :
    (l.foldl (fun hashNode entryNode =>
        (InsertNode w t hashNode entryNode.key entryNode.value).1) hashNode).used =
      nonEmptyBuckets (l.foldl (fun hashNode entryNode =>
        (InsertNode w t hashNode entryNode.key entryNode.value).1) hashNode) % 2 ^ w := by
  induction l generalizing hashNode with
  | nil => exact hc
  | cons e l ih =>
    rw [List.foldl_cons]
    exact ih _ (by rw [InsertNode_size]; exact hpos)
      (InsertNode_counter w t hashNode e.key e.value hpos hc)

/-- After a migration the counter of the new array is, modulo `2^w`, its number
of non-empty buckets, whatever the counter of the old array was. -/
theorem Rehash_counter_of_growth (hg : GrowthCondition t) :
    (Rehash w t).m_hashTable.used = nonEmptyBuckets (Rehash w t).m_hashTable % 2 ^ w := by
  rw [Rehash_of_growth w t hg]
  show (Rehash.migrate w t _).used = nonEmptyBuckets (Rehash.migrate w t _) % 2 ^ w
  rw [migrate_eq_foldl]
  refine foldl_InsertNode_counter w t _ _ (NextPrime_prime _).pos ?_
  rw [nonEmptyBuckets_ofSize]
  rfl

theorem Rehash_size_pos (hpos : 0 < t.m_hashTable.size) : 0 < (Rehash w t).m_hashTable.size := by
  by_cases hg : GrowthCondition t
  · rw [Rehash_size_of_growth w t hg]; exact (NextPrime_prime _).pos
  · rw [Rehash_of_not_growth w t hg]; exact hpos

/-- The public `Insert` keeps the counter equal, modulo `2^w`, to the number of
non-empty buckets. -/
theorem Insert_counter (key : Key) (value : α) (hpos : 0 < t.m_hashTable.size)
    (hc : t.m_hashTable.used = nonEmptyBuckets t.m_hashTable % 2 ^ w) :
    0 < (Insert w t key value).1.m_hashTable.size ∧
      (Insert w t key value).1.m_hashTable.used =
        nonEmptyBuckets (Insert w t key value).1.m_hashTable % 2 ^ w := by
  have hpos1 := Rehash_size_pos w t hpos
  have hc1 : (Rehash w t).m_hashTable.used =
      nonEmptyBuckets (Rehash w t).m_hashTable % 2 ^ w := by
    by_cases hg : GrowthCondition t
    · exact Rehash_counter_of_growth w t hg
    · rw [Rehash_of_not_growth w t hg]; exact hc
  refine ⟨?_, ?_⟩
  · rw [Insert_size]; exact hpos1
  · exact InsertNode_counter w (Rehash w t) _ key value hpos1 hc1

/-- After every sequence of `Insert` calls the counter is, modulo `2^w`, the
number of non-empty buckets. -/
theorem run_insertOps_counter (kvs : List (Key × α)) (hpos : 0 < t.m_hashTable.size)
    (hc : t.m_hashTable.used = nonEmptyBuckets t.m_hashTable % 2 ^ w) :
    (run w t (insertOps kvs)).1.m_hashTable.used =
      nonEmptyBuckets (run w t (insertOps kvs)).1.m_hashTable % 2 ^ w := by
  induction kvs generalizing t with
  | nil => exact hc
  | cons p kvs ih =>
    obtain ⟨h1, h2⟩ := Insert_counter w t p.1 p.2 hpos hc
    exact ih _ h1 h2

theorem mod_eq_of_le_of_lt {a b m : Nat} (h1 : a ≤ b) (h2 : b < m) : a % m = a :=
  Nat.mod_eq_of_lt (Nat.lt_of_le_of_lt h1 h2)

end Count


/-! ## The loops of the prime search stop -/

/-- With enough iterations the step-bounded loop of `IsPrime` returns, and it
returns the value of `IsPrime.loop`. -/
theorem IsPrime.division_stops (x i : Nat) :
    ∃ n, ∀ fuel, n ≤ fuel → IsPrime.loopFuel fuel x i = some (IsPrime.loop x i) := by
  induction i using IsPrime.loop.induct x with
  | case1 i q hq =>
    have hq' : x / i < i := hq
    refine ⟨1, fun fuel hf => ?_⟩
    obtain ⟨f, rfl⟩ := Nat.exists_eq_succ_of_ne_zero (by omega : fuel ≠ 0)
    rw [IsPrime.loop]
    simp only [IsPrime.loopFuel, hq', if_true]
  | case2 i q hq hx =>
    have hq' : ¬ x / i < i := hq
    have hx' : x = x / i * i := hx
    refine ⟨1, fun fuel hf => ?_⟩
    obtain ⟨f, rfl⟩ := Nat.exists_eq_succ_of_ne_zero (by omega : fuel ≠ 0)
    rw [IsPrime.loop]
    simp only [IsPrime.loopFuel, hq', if_false, ← hx', if_true]
  | case3 i q hq hx ih =>
    have hq' : ¬ x / i < i := hq
    have hx' : ¬ x = x / i * i := hx
    obtain ⟨n, hn⟩ := ih
    refine ⟨n + 1, fun fuel hf => ?_⟩
    obtain ⟨f, rfl⟩ := Nat.exists_eq_succ_of_ne_zero (by omega : fuel ≠ 0)
    rw [IsPrime.loop]
    simp only [IsPrime.loopFuel, hq', if_false, hx']
    exact hn f (by omega)

/-- With enough tests the step-bounded search loop of `NextPrime` returns, and it
returns the value of `NextPrime.loop`. -/
theorem NextPrime.search_stops (x : Nat) :
    ∃ n, ∀ fuel, n ≤ fuel → NextPrime.loopFuel fuel x = some (NextPrime.loop x) := by
  induction x using NextPrime.loop.induct with
  | case1 x hx =>
    refine ⟨1, fun fuel hf => ?_⟩
    obtain ⟨f, rfl⟩ := Nat.exists_eq_succ_of_ne_zero (by omega : fuel ≠ 0)
    rw [NextPrime.loop, if_pos hx, NextPrime.loopFuel, if_pos hx]
  | case2 x hx ih =>
    obtain ⟨n, hn⟩ := ih
    refine ⟨n + 1, fun fuel hf => ?_⟩
    obtain ⟨f, rfl⟩ := Nat.exists_eq_succ_of_ne_zero (by omega : fuel ≠ 0)
    rw [NextPrime.loop, if_neg hx, NextPrime.loopFuel, if_neg hx]
    exact hn f (by omega)

/-- The exit test `x / i < i` of the trial division is met by some divisor
`i + 2 * k`, for every start `i`. -/
theorem exists_exit (x i : Nat) : ∃ k, x / (i + 2 * k) < i + 2 * k := by
  refine ⟨x + 1, ?_⟩
  have h : x / (i + 2 * (x + 1)) ≤ x := Nat.div_le_self _ _
  omega

/-- On an odd number from 3 on, `IsPrime` is true exactly on the primes. -/
theorem IsPrime_iff_prime {x : Nat} (h3 : 3 ≤ x) (hodd : x % 2 = 1) :
    IsPrime x = true ↔ x.Prime :=
  ⟨prime_of_IsPrime h3 hodd, IsPrime_of_prime⟩

theorem prime_INIT_TABLE_SIZE : Nat.Prime INIT_TABLE_SIZE := by
  unfold INIT_TABLE_SIZE
  norm_num

theorem Delete_size {α : Type} (w : Nat) (t : HashTable α) (key : Key) :
    (Delete w t key).m_hashTable.size = t.m_hashTable.size := by
  simp only [Delete]
  cases Delete.walk t.m_keyCmpFunctor key
      (t.m_hashTable.table (t.m_hashFunctor key (strlen key) % t.m_hashTable.size)) <;> rfl

/-- The bucket count of every reachable table is prime. -/
theorem Reachable.size_prime {α : Type} {w : Nat} {t : HashTable α} (h : Reachable w t) :
    t.m_hashTable.size.Prime := by
  induction h with
  | fresh => exact prime_INIT_TABLE_SIZE
  | @insert t0 key value _ ih =>
    rw [Insert_size]
    by_cases hg : GrowthCondition t0
    · rw [Rehash_size_of_growth w t0 hg]; exact NextPrime_prime _
    · rw [Rehash_of_not_growth w t0 hg]; exact ih
  | delete key _ ih => rw [Delete_size]; exact ih

/-- With the resize ratio 2 and at least one bucket, the growth condition says
that the counter exceeds half of the bucket count. -/
theorem growth_iff_half (n u : Nat) (hn : 1 ≤ n) :
    (u ≥ n ∨ (u > 0 ∧ n / u < 2)) ↔ n < 2 * u := by
  constructor
  · rintro (h | ⟨h0, h⟩)
    · omega
    · rw [Nat.div_lt_iff_lt_mul h0] at h; omega
  · intro h
    right
    have h0 : 0 < u := by omega
    exact ⟨h0, (Nat.div_lt_iff_lt_mul h0).2 (by omega)⟩

theorem NextPrime_double_gt (n : Nat) : n < NextPrime (n * 2) := by
  have h1 := le_NextPrime (n * 2)
  have h2 := (NextPrime_prime (n * 2)).two_le
  omega


/-! ## Further facts on single calls and the example states -/

/-- `Delete` of a key that `Find` finds decrements the counter modulo `2^w`, in
any table state. -/
theorem Delete_used_of_present (w : Nat) {α : Type} (t : HashTable α) (key : Key)
    (hp : Find t key ≠ none) :
    (Delete w t key).m_hashTable.used = (t.m_hashTable.used + (2 ^ w - 1)) % 2 ^ w := by
  cases hd : Delete.walk t.m_keyCmpFunctor key
      (t.m_hashTable.table (t.m_hashFunctor key (strlen key) % t.m_hashTable.size)) with
  | none => exact absurd ((Delete.walk_none_iff_find_none _ key _).1 hd) hp
  | some c => simp only [Delete, hd]

theorem pred_mod_succ (u m : Nat) (hm : 0 < m) : ((u + (m - 1)) % m + 1) % m = u % m := by
  rw [Nat.mod_add_mod, Nat.add_assoc, Nat.sub_add_cancel hm, Nat.add_mod_right]

/-- The public `Insert` of a new key when the growth condition does not hold. -/
theorem Insert_of_not_growth_of_absent (w : Nat) {α : Type} (t : HashTable α) (key : Key)
    (value : α) (hg : ¬ GrowthCondition t) (habs : Find t key = none) :
    Insert w t key value =
      ({ t with m_hashTable := insertedNode w t t.m_hashTable key value }, true) := by
  simp only [Insert, Rehash_of_not_growth w t hg, InsertNode_absent w t _ key value habs]

theorem reachable_collidedState : Reachable 64 collidedState :=
  Reachable.delete _ (Reachable.insert _ _ (Reachable.insert _ _ Reachable.fresh))

theorem reachable_underflowState : Reachable 64 underflowState :=
  Reachable.delete _ reachable_collidedState


/-! ## The properties of the public interface -/

/-- C1: for every finite sequence of `Insert` and `Delete` calls applied to a
freshly constructed default table, the table behaves like the reference map with
insert-if-absent and erase: the `Insert` calls return what the reference map
returns (true exactly when the key is absent from it at that point), and after
the sequence `Find k` is the value the reference map holds for `k`, for every
key `k`. -/
theorem refines_reference_map {α : Type} (w : Nat) (ops : List (Op α)) :
    (run w fresh ops).2 = (RefMap.run [] ops).2 ∧
      ∀ k, Find (run w fresh ops).1 k = RefMap.find (RefMap.run [] ops).1 k :=
  run_refines w ops fresh [] TableInv_fresh (fun _ => rfl)

/-- C2: in every reachable table state, for every key `k` with `Find k` empty and
every value `v`, `Insert k v` returns true and `Find k` yields `v` right after,
whether or not the call rehashes. -/
theorem insert_absent_true_and_found {α : Type} (w : Nat) (t : HashTable α) (k : Key) (v : α)
    (h : Reachable w t) (habs : Find t k = none) :
    (Insert w t k v).2 = true ∧ Find (Insert w t k v).1 k = some v := by
  obtain ⟨hr, _, hfind⟩ := Insert_spec w t h.inv k v
  refine ⟨by rw [hr, habs]; rfl, ?_⟩
  rw [hfind k, habs]
  simp

/-- The instance of C2 at a state whose growth condition holds: the key `"x"` is
absent from `wrappedState`, and the `Insert` rehashes. -/
theorem insert_absent_true_and_found_witness :
    GrowthCondition wrappedState ∧ (Insert 64 wrappedState [120] 5).2 = true ∧
      Find (Insert 64 wrappedState [120] 5).1 [120] = some 5 :=
  ⟨growth_wrappedState,
    insert_absent_true_and_found 64 wrappedState [120] 5 reachable_wrappedState (by decide)⟩

/-- C3: in every reachable table state in which `Find k` yields `v0`, for every
value `v`, `Insert k v` returns false, `Find k` still yields `v0` afterwards, and
`Find` is unchanged on every other key: the stored value is never overwritten. -/
theorem insert_present_false_and_kept {α : Type} (w : Nat) (t : HashTable α) (k : Key)
    (v0 v : α) (h : Reachable w t) (hv : Find t k = some v0) :
    (Insert w t k v).2 = false ∧ Find (Insert w t k v).1 k = some v0 ∧
      ∀ k', k' ≠ k → Find (Insert w t k v).1 k' = Find t k' := by
  obtain ⟨hr, _, hfind⟩ := Insert_spec w t h.inv k v
  refine ⟨by rw [hr, hv]; rfl, ?_, ?_⟩
  · rw [hfind k, hv]; simp
  · intro k' hk'
    rw [hfind k']
    simp [hk']

/-- The instance of C3 at `oneKeyState` and its key `"Ab"`. -/
theorem insert_present_false_and_kept_witness :
    (Insert 64 oneKeyState [65, 98] 9).2 = false ∧
      Find (Insert 64 oneKeyState [65, 98] 9).1 [65, 98] = some 7 ∧
      ∀ k', k' ≠ [65, 98] → Find (Insert 64 oneKeyState [65, 98] 9).1 k' = Find oneKeyState k' :=
  insert_present_false_and_kept 64 oneKeyState [65, 98] 7 9 reachable_oneKeyState (by decide)

/-- Against C4 as stated: `wrappedState` is reachable and holds the key `"C "`;
`Insert("C ", 9)` returns false, and the bucket count after the call differs
from the bucket count before it. -/
theorem insert_present_changes_bucket_count :
    Reachable 64 wrappedState ∧ Find wrappedState [67, 32] = some 3 ∧
      (Insert 64 wrappedState [67, 32] 9).2 = false ∧
      (Insert 64 wrappedState [67, 32] 9).1.m_hashTable.size ≠ wrappedState.m_hashTable.size := by
  have hf : Find wrappedState [67, 32] = some 3 := by decide
  refine ⟨reachable_wrappedState, hf, ?_, ?_⟩
  · rw [(Insert_spec 64 wrappedState reachable_wrappedState.inv [67, 32] 9).1, hf]; rfl
  · rw [Insert_size, Rehash_size_of_growth 64 wrappedState growth_wrappedState]
    have h1 := le_NextPrime (wrappedState.m_hashTable.size * 2)
    have h2 : wrappedState.m_hashTable.size = 689981 := by decide
    rw [h2] at h1 ⊢
    omega

/-- C4, amended: in every reachable table state and for every key already
present, `Insert` returns false and changes no `Find` result; when the growth
condition does not hold at the call the whole table state is left unchanged
(the bucket count, the occupancy counter and every chain are identical), and
when it holds the bucket array is first rebuilt with `NextPrime (size * 2)`
buckets. -/
theorem insert_present_unchanged_unless_growth {α : Type} (w : Nat) (t : HashTable α)
    (k : Key) (v : α) (h : Reachable w t) (hp : Find t k ≠ none) :
    (Insert w t k v).2 = false ∧ (∀ k', Find (Insert w t k v).1 k' = Find t k') ∧
      (¬ GrowthCondition t → (Insert w t k v).1 = t) ∧
      (GrowthCondition t →
        (Insert w t k v).1.m_hashTable.size = NextPrime (t.m_hashTable.size * 2)) := by
  obtain ⟨hr, _, hfind⟩ := Insert_spec w t h.inv k v
  have hn : ¬ (Find t k).isNone = true := by
    cases hf : Find t k with
    | none => exact absurd hf hp
    | some v0 => simp
  refine ⟨?_, ?_, ?_, ?_⟩
  · rw [hr]; exact Bool.eq_false_iff.2 hn
  · intro k'
    rw [hfind k']
    simp [hn]
  · intro hg
    rw [Insert_of_not_growth_of_present w t k v hg hp]
  · intro hg
    rw [Insert_size, Rehash_size_of_growth w t hg]

/-- The instance of amended C4 at `oneKeyState` and its key `"Ab"`, where the
growth condition does not hold. -/
theorem insert_present_unchanged_unless_growth_witness :
    ¬ GrowthCondition oneKeyState ∧ (Insert 64 oneKeyState [65, 98] 9).1 = oneKeyState :=
  ⟨by decide,
    (insert_present_unchanged_unless_growth 64 oneKeyState [65, 98] 9 reachable_oneKeyState
      (by decide)).2.2.1 (by decide)⟩

/-- C5: in every reachable table state and for every key `k`, after `Delete k`
the call `Find k` returns empty, and a following `Insert k v` returns true with
`Find k` then yielding `v`. -/
theorem delete_then_absent_then_reinsert {α : Type} (w : Nat) (t : HashTable α) (k : Key)
    (v : α) (h : Reachable w t) :
    Find (Delete w t k) k = none ∧ (Insert w (Delete w t k) k v).2 = true ∧
      Find (Insert w (Delete w t k) k v).1 k = some v := by
  obtain ⟨hinv, hfind⟩ := Delete_spec w t h.inv k
  have habs : Find (Delete w t k) k = none := by rw [hfind k]; simp
  obtain ⟨hr, _, hfind'⟩ := Insert_spec w (Delete w t k) hinv k v
  refine ⟨habs, by rw [hr, habs]; rfl, ?_⟩
  rw [hfind' k, habs]
  simp

/-- The instance of C5 at `oneKeyState` and its key `"Ab"`. -/
theorem delete_then_absent_then_reinsert_witness :
    Find oneKeyState [65, 98] = some 7 ∧ Find (Delete 64 oneKeyState [65, 98]) [65, 98] = none ∧
      (Insert 64 (Delete 64 oneKeyState [65, 98]) [65, 98] 8).2 = true ∧
      Find (Insert 64 (Delete 64 oneKeyState [65, 98]) [65, 98] 8).1 [65, 98] = some 8 :=
  ⟨by decide, delete_then_absent_then_reinsert 64 oneKeyState [65, 98] 8 reachable_oneKeyState⟩

/-- C6: in every reachable table state and for distinct keys `k` and `k'`,
`Find k'` returns the same result after `Delete k` as before it, and the same
result after `Insert k v` as before it; the buckets of the two keys and the
growth condition are arbitrary. -/
theorem find_other_key_unchanged {α : Type} (w : Nat) (t : HashTable α) (k k' : Key) (v : α)
    (h : Reachable w t) (hne : k ≠ k') :
    Find (Delete w t k) k' = Find t k' ∧ Find (Insert w t k v).1 k' = Find t k' := by
  have hne' : ¬ k' = k := fun h => hne h.symm
  constructor
  · rw [(Delete_spec w t h.inv k).2 k']
    simp [hne']
  · rw [(Insert_spec w t h.inv k v).2.2 k']
    simp [hne']

/-- The instance of C6 at `wrappedState`, whose growth condition holds, with the
keys `"BA"` and `"C "` of one bucket. -/
theorem find_other_key_unchanged_witness :
    Find (Delete 64 wrappedState [66, 65]) [67, 32] = Find wrappedState [67, 32] ∧
      Find (Insert 64 wrappedState [66, 65] 4).1 [67, 32] = Find wrappedState [67, 32] :=
  find_other_key_unchanged 64 wrappedState [66, 65] [67, 32] 4 reachable_wrappedState
    (by decide)

/-- C7: in every reachable table state and for every key `k` that is not present,
`Delete k` is a no-op: the table state, and so the bucket count, the occupancy
counter and every chain, is exactly as before the call. -/
theorem delete_absent_noop {α : Type} (w : Nat) (t : HashTable α) (k : Key)
    (_ : Reachable w t) (habs : Find t k = none) :
    Delete w t k = t ∧ (Delete w t k).m_hashTable.size = t.m_hashTable.size ∧
      (Delete w t k).m_hashTable.used = t.m_hashTable.used ∧
      ∀ i, (Delete w t k).m_hashTable.table i = t.m_hashTable.table i := by
  rw [Delete_of_absent w t k habs]
  exact ⟨rfl, rfl, rfl, fun _ => rfl⟩

/-- The instance of C7 at `oneKeyState` and the absent key `"BA"`, which belongs
to the bucket of the stored key `"Ab"`. -/
theorem delete_absent_noop_witness :
    Delete 64 oneKeyState [66, 65] = oneKeyState :=
  (delete_absent_noop 64 oneKeyState [66, 65] reachable_oneKeyState (by decide)).1

/-- C8: in every reachable table state in which the growth condition holds, the
rehash that `Insert` performs builds a bucket array of `NextPrime (size * 2)`
buckets whose multiset of entries (key and value) is that of the old array, and
`Find k` gives the same result for every key `k` before and after it. -/
theorem rehash_preserves_content {α : Type} (w : Nat) (t : HashTable α)
    (h : Reachable w t) (hg : GrowthCondition t) :
    (Rehash w t).m_hashTable.size = NextPrime (t.m_hashTable.size * 2) ∧
      (↑(entries (Rehash w t)) : Multiset (EntryNode α)) = ↑(entries t) ∧
      ∀ k, Find (Rehash w t) k = Find t k :=
  ⟨Rehash_size_of_growth w t hg, Multiset.coe_eq_coe.2 (Rehash_entries w t h.inv),
    Rehash_find w t h.inv⟩

/-- The instance of C8 at `wrappedState`. -/
theorem rehash_preserves_content_witness :
    GrowthCondition wrappedState ∧
      (↑(entries (Rehash 64 wrappedState)) : Multiset (EntryNode Nat)) = ↑(entries wrappedState) ∧
      ∀ k, Find (Rehash 64 wrappedState) k = Find wrappedState k :=
  ⟨growth_wrappedState,
    (rehash_preserves_content 64 wrappedState reachable_wrappedState growth_wrappedState).2⟩

/-- C9: in every table state reachable from a fresh table, no two entries of the
bucket array have equal keys (neither within a chain nor across the array), and
every entry stands in the chain of bucket `hash(key) mod N`, where `hash` is
`ImplHashFunc` and `N` the current bucket count. -/
theorem reachable_keys_unique_and_bucketed {α : Type} (w : Nat) (t : HashTable α)
    (h : Reachable w t) :
    (∀ i, ((t.m_hashTable.table i).map EntryNode.key).Nodup) ∧
      ((entries t).map EntryNode.key).Nodup ∧
      ∀ i e, e ∈ t.m_hashTable.table i →
        i = ImplHashFunc e.key (strlen e.key) % t.m_hashTable.size := by
  have hinv := h.inv
  refine ⟨hinv.node.nodup, nodeEntries_keys_nodup t _ hinv.node, fun i e he => ?_⟩
  have := hinv.node.bucket i e he
  rw [bucketOf, hinv.hash_eq] at this
  exact this.symm

/-- The instance of C9 at `wrappedState`. -/
theorem reachable_keys_unique_and_bucketed_witness :
    ((entries wrappedState).map EntryNode.key).Nodup ∧
      ∀ i e, e ∈ wrappedState.m_hashTable.table i →
        i = ImplHashFunc e.key (strlen e.key) % wrappedState.m_hashTable.size :=
  (reachable_keys_unique_and_bucketed 64 wrappedState reachable_wrappedState).2

/-- C10: for every `x`, `NextPrime x` is the smallest prime number that is greater
than or equal to `x`; in particular `NextPrime` maps 0, 1 and 2 to 2. -/
theorem NextPrime_smallest_prime_ge (x : Nat) :
    ((NextPrime x).Prime ∧ x ≤ NextPrime x ∧ ∀ p, p.Prime → x ≤ p → NextPrime x ≤ p) ∧
      NextPrime 0 = 2 ∧ NextPrime 1 = 2 ∧ NextPrime 2 = 2 :=
  ⟨⟨NextPrime_prime x, le_NextPrime x, fun _ hp hle => NextPrime_le_of_prime hp hle⟩,
    by simp [NextPrime], by simp [NextPrime], by simp [NextPrime]⟩


/-- C11: whenever an `Insert` triggers growth on a table with bucket count
`N >= 1`, the bucket count afterwards is the smallest prime that is at least
`2 * N`: it is `NextPrime (N * 2)`, it is prime, at least twice the old bucket
count, not above any prime that is at least `2 * N`, and strictly greater than
the old bucket count. -/
theorem insert_growth_bucket_count {α : Type} (w : Nat) (t : HashTable α) (k : Key) (v : α)
    (hg : GrowthCondition t) (hn : 1 ≤ t.m_hashTable.size) :
    (Insert w t k v).1.m_hashTable.size = NextPrime (t.m_hashTable.size * 2) ∧
      (Insert w t k v).1.m_hashTable.size.Prime ∧
      2 * t.m_hashTable.size ≤ (Insert w t k v).1.m_hashTable.size ∧
      (∀ p, p.Prime → 2 * t.m_hashTable.size ≤ p → (Insert w t k v).1.m_hashTable.size ≤ p) ∧
      t.m_hashTable.size < (Insert w t k v).1.m_hashTable.size := by
  have hs : (Insert w t k v).1.m_hashTable.size = NextPrime (t.m_hashTable.size * 2) := by
    rw [Insert_size, Rehash_size_of_growth w t hg]
  rw [hs]
  have hle := le_NextPrime (t.m_hashTable.size * 2)
  refine ⟨rfl, NextPrime_prime _, by omega, fun p hp h2 => ?_, by omega⟩
  exact NextPrime_le_of_prime hp (by omega)

/-- The instance of C11 at `wrappedState`, with 689981 buckets, and the call
`Insert("x", 5)`. -/
theorem insert_growth_bucket_count_witness :
    (Insert 64 wrappedState [120] 5).1.m_hashTable.size.Prime ∧
      2 * 689981 ≤ (Insert 64 wrappedState [120] 5).1.m_hashTable.size :=
  ⟨(insert_growth_bucket_count 64 wrappedState [120] 5 growth_wrappedState (by decide)).2.1,
    (insert_growth_bucket_count 64 wrappedState [120] 5 growth_wrappedState (by decide)).2.2.1⟩

/-- C12: the freshly constructed table has `INIT_TABLE_SIZE = 689981` buckets,
and in every table state reachable from it by `Insert` and `Delete` calls the
bucket count is a prime number. -/
theorem reachable_bucket_count_prime {α : Type} (w : Nat) (t : HashTable α)
    (h : Reachable w t) :
    (fresh : HashTable α).m_hashTable.size = 689981 ∧ t.m_hashTable.size.Prime :=
  ⟨rfl, h.size_prime⟩

/-- The instance of C12 at `wrappedState`. -/
theorem reachable_bucket_count_prime_witness : wrappedState.m_hashTable.size.Prime :=
  (reachable_bucket_count_prime 64 wrappedState reachable_wrappedState).2

/-- C13, at the failing input: after `Insert("Ab", 1)`, `Insert("BA", 2)`,
`Delete("Ab")`, `Delete("BA")` on a fresh table the counter `used` is
`2^64 - 1` over 689981 buckets, so `used <= size` does not hold in this
reachable state. -/
theorem underflow_counter_exceeds_bucket_count :
    Reachable 64 underflowState ∧ underflowState.m_hashTable.used = 2 ^ 64 - 1 ∧
      underflowState.m_hashTable.size = 689981 ∧
      ¬ underflowState.m_hashTable.used ≤ underflowState.m_hashTable.size :=
  ⟨reachable_underflowState, by decide, by decide, by decide⟩

/-- C14: in every table state with bucket count `N`, counter `u` and the resize
ratio 2 of the constructor, the public `Insert` rehashes (its `Rehash` step
replaces the bucket array by the migrated one, which changes the bucket count)
exactly when `u >= N` or `u > 0` and `N / u < 2`; for `N >= 1` the condition says
`2 * u > N`; when it is false the `Insert` leaves the bucket count unchanged;
`Delete` never changes the bucket count (and `Find` returns no state). -/
theorem rehash_exactly_on_growth {α : Type} (w : Nat) (t : HashTable α) (k : Key) (v : α)
    (hr : t.m_resizeRatio = 2) :
    ((Insert w t k v).1.m_hashTable.size ≠ t.m_hashTable.size ↔
        (t.m_hashTable.used ≥ t.m_hashTable.size ∨
          (t.m_hashTable.used > 0 ∧ t.m_hashTable.size / t.m_hashTable.used < 2))) ∧
      ((t.m_hashTable.used ≥ t.m_hashTable.size ∨
          (t.m_hashTable.used > 0 ∧ t.m_hashTable.size / t.m_hashTable.used < 2)) →
        Rehash w t =
          { t with
            m_hashTable :=
              Rehash.migrate w t (HashNode.ofSize (NextPrime (t.m_hashTable.size * 2))) }) ∧
      (¬ (t.m_hashTable.used ≥ t.m_hashTable.size ∨
          (t.m_hashTable.used > 0 ∧ t.m_hashTable.size / t.m_hashTable.used < 2)) →
        Rehash w t = t ∧ (Insert w t k v).1.m_hashTable.size = t.m_hashTable.size) ∧
      (1 ≤ t.m_hashTable.size →
        ((t.m_hashTable.used ≥ t.m_hashTable.size ∨
          (t.m_hashTable.used > 0 ∧ t.m_hashTable.size / t.m_hashTable.used < 2)) ↔
          t.m_hashTable.size < 2 * t.m_hashTable.used)) ∧
      ∀ k', (Delete w t k').m_hashTable.size = t.m_hashTable.size := by
  have hG : GrowthCondition t ↔ (t.m_hashTable.used ≥ t.m_hashTable.size ∨
      (t.m_hashTable.used > 0 ∧ t.m_hashTable.size / t.m_hashTable.used < 2)) := by
    rw [GrowthCondition, hr]
  rw [← hG]
  refine ⟨?_, fun hg => Rehash_of_growth w t hg, fun hg => ?_, fun hn => ?_,
    fun k' => Delete_size w t k'⟩
  · rw [Insert_size]
    constructor
    · intro hne
      by_contra hg
      exact hne (by rw [Rehash_of_not_growth w t hg])
    · intro hg
      rw [Rehash_size_of_growth w t hg]
      exact Nat.ne_of_gt (NextPrime_double_gt _)
  · refine ⟨Rehash_of_not_growth w t hg, ?_⟩
    rw [Insert_size, Rehash_of_not_growth w t hg]
  · rw [hG]
    exact growth_iff_half _ _ hn

/-- The instance of C14 at `wrappedState`, where the condition holds and the
`Insert` changes the bucket count. -/
theorem rehash_exactly_on_growth_witness :
    (Insert 64 wrappedState [120] 5).1.m_hashTable.size ≠ wrappedState.m_hashTable.size :=
  (rehash_exactly_on_growth 64 wrappedState [120] 5 rfl).1.2 (by decide)

/-- C15: for every string `s` of `char` values, `ImplHashFunc(s, |s|)` is `f(s)`
for the `f` with `f(empty) = 5381` and `f(s ++ [c]) = (33 * f(s) + c) mod 2^32`;
the empty key hashes to 5381, and the shift form `(h << 5) + h` is `33 * h`
modulo `2^32`. -/
theorem ImplHashFunc_is_digest (s : Key) :
    ((ImplHashFunc s (strlen s) : Nat) : Int) = digestSpec s ∧
      digestSpec [] = 5381 ∧
      (∀ (r : List Int) (c : Int),
        digestSpec (r ++ [c]) = (33 * digestSpec r + c) % 4294967296) ∧
      ImplHashFunc [] (strlen []) = 5381 ∧
      ∀ h : Nat, ((h <<< 5) % 4294967296 + h) % 4294967296 = 33 * h % 4294967296 :=
  ⟨ImplHashFunc_eq_digestSpec s, rfl, digestSpec_append, rfl, shift_add_eq⟩

/-- C16: for every ASCII string `s`, `ImplCaseHashFunc(s, |s|)` is `ImplHashFunc`
of `s` with every character lower-cased; so two ASCII strings that differ only
in the case of letters (their lower-cased forms are equal) get the same digest
from `ImplCaseHashFunc`. -/
theorem ImplCaseHashFunc_lowercases (s s' : Key) (hs : ∀ c ∈ s, 0 ≤ c ∧ c ≤ 127)
    (hs' : ∀ c ∈ s', 0 ≤ c ∧ c ≤ 127) :
    ImplCaseHashFunc s (strlen s) = ImplHashFunc (s.map tolower) (strlen s) ∧
      (s.map tolower = s'.map tolower →
        ImplCaseHashFunc s (strlen s) = ImplCaseHashFunc s' (strlen s')) := by
  refine ⟨ImplCaseHashFunc_eq s hs, fun heq => ?_⟩
  have hlen : strlen s = strlen s' := by
    have := congrArg List.length heq
    simpa [strlen] using this
  rw [ImplCaseHashFunc_eq s hs, ImplCaseHashFunc_eq s' hs', heq, hlen]

/-- The instance of C16 at `"Ab"` and `"aB"`. -/
theorem ImplCaseHashFunc_lowercases_witness :
    ImplCaseHashFunc [65, 98] 2 = ImplHashFunc [97, 98] 2 ∧
      ImplCaseHashFunc [65, 98] 2 = ImplCaseHashFunc [97, 66] 2 :=
  ⟨(ImplCaseHashFunc_lowercases [65, 98] [97, 66] (by decide) (by decide)).1,
    (ImplCaseHashFunc_lowercases [65, 98] [97, 66] (by decide) (by decide)).2 (by decide)⟩

/-- C17: in every table state in which the growth condition does not hold, for
every key `k` that `Find` does not find, `Insert k v` returns true, puts the new
entry at the head of the chain of bucket `idx = hash(k) mod N` with the previous
chain behind it, leaves every other bucket and the bucket count unchanged, and
increments the counter (modulo `2^w`; by exactly one when the bucket count is a
`size_t` value) if bucket `idx` was empty, and leaves the counter unchanged
otherwise. -/
theorem insert_new_key_links_at_head {α : Type} (w : Nat) (t : HashTable α) (k : Key) (v : α)
    (hg : ¬ GrowthCondition t) (habs : Find t k = none) :
    (Insert w t k v).2 = true ∧
      (Insert w t k v).1.m_hashTable.table
          (t.m_hashFunctor k (strlen k) % t.m_hashTable.size) =
        { key := k, value := v } ::
          t.m_hashTable.table (t.m_hashFunctor k (strlen k) % t.m_hashTable.size) ∧
      (∀ j, j ≠ t.m_hashFunctor k (strlen k) % t.m_hashTable.size →
        (Insert w t k v).1.m_hashTable.table j = t.m_hashTable.table j) ∧
      (Insert w t k v).1.m_hashTable.size = t.m_hashTable.size ∧
      ((t.m_hashTable.table (t.m_hashFunctor k (strlen k) % t.m_hashTable.size)).isEmpty = true →
        (Insert w t k v).1.m_hashTable.used = (t.m_hashTable.used + 1) % 2 ^ w ∧
        (t.m_hashTable.size < 2 ^ w →
          (Insert w t k v).1.m_hashTable.used = t.m_hashTable.used + 1)) ∧
      ((t.m_hashTable.table (t.m_hashFunctor k (strlen k) % t.m_hashTable.size)).isEmpty = false →
        (Insert w t k v).1.m_hashTable.used = t.m_hashTable.used) := by
  rw [Insert_of_not_growth_of_absent w t k v hg habs]
  refine ⟨rfl, ?_, ?_, rfl, ?_, ?_⟩
  · simp only [insertedNode, bucketOf, setBucket_same]
  · intro j hj
    simp only [insertedNode, bucketOf, setBucket_other _ _ hj]
  · intro he
    have hu : (insertedNode w t t.m_hashTable k v).used = (t.m_hashTable.used + 1) % 2 ^ w := by
      simp only [insertedNode, bucketOf, he, if_true]
    refine ⟨hu, fun hlt => ?_⟩
    have hlt' : t.m_hashTable.used < t.m_hashTable.size := by
      by_contra hge
      exact hg (Or.inl (by omega))
    show (insertedNode w t t.m_hashTable k v).used = _
    rw [hu]
    exact Nat.mod_eq_of_lt (by omega)
  · intro he
    simp only [insertedNode, bucketOf, he, Bool.false_eq_true, if_false]

/-- The instance of C17 at the fresh table and the key `"Ab"`, whose bucket
342304 is empty: the counter goes from 0 to 1. -/
theorem insert_new_key_links_at_head_witness :
    (fresh : HashTable Nat).m_hashTable.used = 0 ∧
      (Insert 64 (fresh : HashTable Nat) [65, 98] 7).1.m_hashTable.used = 1 :=
  ⟨rfl,
    ((insert_new_key_links_at_head 64 (fresh : HashTable Nat) [65, 98] 7 (by decide)
      (by decide)).2.2.2.2.1 (by decide)).2 (by decide)⟩

/-- C18: in every table state and for every key that `Find` finds, `Delete`
decrements the counter by exactly one modulo `2^w`, whether or not the bucket
keeps other entries; and after `Insert("Ab")`, `Insert("BA")`, `Delete("Ab")` on
a fresh table (64-bit `size_t`) the counter is 0 while bucket 342304 is not
empty, so the counter is strictly smaller than the number of non-empty
buckets. -/
theorem delete_present_decrements {α : Type} (w : Nat) (t : HashTable α) (k : Key)
    (hp : Find t k ≠ none) :
    ((Delete w t k).m_hashTable.used = (t.m_hashTable.used + (2 ^ w - 1)) % 2 ^ w ∧
        ((Delete w t k).m_hashTable.used + 1) % 2 ^ w = t.m_hashTable.used % 2 ^ w ∧
        (0 < t.m_hashTable.used → t.m_hashTable.used < 2 ^ w →
          (Delete w t k).m_hashTable.used = t.m_hashTable.used - 1)) ∧
      (Reachable 64 collidedState ∧ collidedState.m_hashTable.used = 0 ∧
        (collidedState.m_hashTable.table 342304).isEmpty = false ∧
        collidedState.m_hashTable.used < nonEmptyBuckets collidedState.m_hashTable) := by
  have hu := Delete_used_of_present w t k hp
  have hpos : 0 < 2 ^ w := Nat.pow_pos (by decide)
  refine ⟨⟨hu, ?_, ?_⟩, reachable_collidedState, by decide, by decide, ?_⟩
  · rw [hu]; exact pred_mod_succ _ _ hpos
  · intro h0 hlt
    rw [hu]
    have : t.m_hashTable.used + (2 ^ w - 1) = (t.m_hashTable.used - 1) + 2 ^ w := by omega
    rw [this, Nat.add_mod_right]
    exact Nat.mod_eq_of_lt (by omega)
  · have h0 : collidedState.m_hashTable.used = 0 := by decide
    rw [h0]
    exact nonEmptyBuckets_pos _ 342304 (by decide) (by decide)

/-- The instance of C18 at `oneKeyState` and its key `"Ab"`: the counter goes
from 1 to 0. -/
theorem delete_present_decrements_witness :
    oneKeyState.m_hashTable.used = 1 ∧
      (Delete 64 oneKeyState [65, 98]).m_hashTable.used = 0 :=
  ⟨by decide,
    (delete_present_decrements 64 oneKeyState [65, 98] (by decide)).1.2.2 (by decide)
      (by decide)⟩

/-- C19: `IsPrime` and `NextPrime` terminate for every input.  For every `x` and
every start `i`, the trial-division loop run with enough iterations returns the
value of `IsPrime.loop x i`, because some divisor `i + 2 * k` meets the exit test
`x / i < i`; the search loop run with enough tests returns the value of
`NextPrime.loop x`, because `IsPrime` accepts some candidate `x + 2 * k`; and
for every odd `x >= 3`, `IsPrime x` is true exactly when `x` is prime. -/
theorem prime_search_terminates (x : Nat) :
    (∀ i, ∃ n, ∀ fuel, n ≤ fuel → IsPrime.loopFuel fuel x i = some (IsPrime.loop x i)) ∧
      (∀ i, ∃ k, x / (i + 2 * k) < i + 2 * k) ∧
      (∃ n, ∀ fuel, n ≤ fuel → NextPrime.loopFuel fuel x = some (NextPrime.loop x)) ∧
      (∃ k, IsPrime (x + 2 * k) = true) ∧
      (2 < x → NextPrime x = NextPrime.loop (if x % 2 = 0 then x + 1 else x)) ∧
      (3 ≤ x → x % 2 = 1 → (IsPrime x = true ↔ x.Prime)) :=
  ⟨IsPrime.division_stops x, exists_exit x, NextPrime.search_stops x, exists_accepted x,
    fun h => NextPrime_eq_loop h, fun h3 hodd => IsPrime_iff_prime h3 hodd⟩

/-- C20: after every sequence of `Insert` calls on a fresh table the counter is
the number of non-empty buckets of the current bucket array, and in every
reachable state whose growth condition holds the counter of the array that the
rehash builds is the number of its non-empty buckets, whatever the counter was
before.  The counter is a `size_t`: the equalities hold modulo `2^w`, and
exactly when the bucket count is a `size_t` value. -/
theorem counter_counts_nonempty_buckets {α : Type} (w : Nat) (kvs : List (Key × α))
    (t : HashTable α) (_ : Reachable w t) (hg : GrowthCondition t) :
    ((run w fresh (insertOps kvs)).1.m_hashTable.used =
        nonEmptyBuckets (run w fresh (insertOps kvs)).1.m_hashTable % 2 ^ w ∧
      ((run w fresh (insertOps kvs)).1.m_hashTable.size < 2 ^ w →
        (run w fresh (insertOps kvs)).1.m_hashTable.used =
          nonEmptyBuckets (run w fresh (insertOps kvs)).1.m_hashTable)) ∧
      ((Rehash w t).m_hashTable.used = nonEmptyBuckets (Rehash w t).m_hashTable % 2 ^ w ∧
        ((Rehash w t).m_hashTable.size < 2 ^ w →
          (Rehash w t).m_hashTable.used = nonEmptyBuckets (Rehash w t).m_hashTable)) := by
  have h1 := run_insertOps_counter w (fresh : HashTable α) kvs
    (by show 0 < 689981; decide) (by
      show 0 = nonEmptyBuckets _ % 2 ^ w
      have : nonEmptyBuckets (fresh : HashTable α).m_hashTable = 0 := by
        simp [nonEmptyBuckets, fresh, new, Init, HashNode.Init]
      rw [this, Nat.zero_mod])
  have h2 := Rehash_counter_of_growth w t hg
  refine ⟨⟨h1, fun hlt => ?_⟩, h2, fun hlt => ?_⟩
  · rw [h1]; exact mod_eq_of_le_of_lt (nonEmptyBuckets_le_size _) hlt
  · rw [h2]; exact mod_eq_of_le_of_lt (nonEmptyBuckets_le_size _) hlt

/-- The instance of C20 at the calls `Insert("Ab", 1)`, `Insert("BA", 2)` and at
the rehash of `wrappedState`, whose counter has wrapped to `2^64 - 1`. -/
theorem counter_counts_nonempty_buckets_witness :
    wrappedState.m_hashTable.used = 2 ^ 64 - 1 ∧
      (Rehash 64 wrappedState).m_hashTable.used =
        nonEmptyBuckets (Rehash 64 wrappedState).m_hashTable % 2 ^ 64 :=
  ⟨by decide,
    (counter_counts_nonempty_buckets 64 [([65, 98], 1), ([66, 65], 2)] wrappedState
      reachable_wrappedState growth_wrappedState).2.1⟩

end HashTable
